import Mathlib

/-!
Verification of the breakpoint-session protocol of `wc3_interpreter.py`
(repository Tomotz/Wc3Utils).

Byte strings (Python `bytes`) are modelled as `List Nat` of byte values.
Python `str` values are modelled as Lean `String`.  Fallible code (Python
`assert`) is modelled with `Except Unit`.  File-system reads are passed in
explicitly: a file is an `Option Bytes` (`none` = the file does not exist).
-/

set_option maxRecDepth 100000

deriving instance DecidableEq for Except

namespace Wc3

abbrev Bytes := List Nat

/-- UTF-8 encoding of one character (pure arithmetic, mirrors the codec
Python uses when it writes `str` data to `bytes` files). -/
def utf8Bytes (c : Char) : List Nat :=
  let n := c.toNat
  if n < 128 then [n]
  else if n < 2048 then [192 + n / 64, 128 + n % 64]
  else if n < 65536 then [224 + n / 4096, 128 + (n / 64) % 64, 128 + n % 64]
  else [240 + n / 262144, 128 + (n / 4096) % 64, 128 + (n / 64) % 64, 128 + n % 64]

/-- Bytes of a Lean string under UTF-8 (used to write the source's string
constants as byte lists). -/
def strBytes (s : String) : Bytes :=
  s.data.foldr (fun c acc => utf8Bytes c ++ acc) []

/-- `FIELD_SEP = bytes([31])` (ASCII unit separator). -/
def FIELD_SEP : Nat := 31

/-- `FILE_PREFIX` of the source, as bytes. -/
def filePre : Bytes :=
  strBytes "function PreloadFiles takes nothing returns nothing\n\n\tcall PreloadStart()\n\tcall Preload( \"\")\nendfunction\n//!beginusercode\nlocal p=\x7b\x7d local i=function(s) table.insert(p,s) end--[[\" )\n\t"

/-- `LINE_PREFIX` of the source, as bytes. -/
def linePre : Bytes := strBytes "\n\tcall Preload( \"]]i([["

/-- `LINE_POSTFIX` of the source, as bytes. -/
def linePost : Bytes := strBytes "]])--[[\" )"

/-- `FILE_POSTFIX` of the source, as bytes. -/
def filePost : Bytes :=
  strBytes "\n\tcall Preload( \"]]BlzSetAbilityTooltip(1095656547, table.concat(p), 0)\n//!endusercode\nfunction a takes nothing returns nothing\n//\" )\n\tcall PreloadEnd( 0.1 )\n\nendfunction\n\n"

/-- The literal opening delimiter of `REGEX_PATTERN`
(`call Preload\( "\]\]i\(\[\[` before the lazy group). -/
def patOpen : Bytes := strBytes "call Preload( \"]]i([["

/-- The literal closing delimiter of `REGEX_PATTERN`
(`\]\]\)--\[\[" \)` after the lazy group). -/
def patClose : Bytes := strBytes "]])--[[\" )"

/-- The literal opening delimiter of `READ_REGEX_PATTERN` and of the
pattern used by `parse_nonloadable_file` (`call Preload\( "`]. -/
def readOpen : Bytes := strBytes "call Preload( \""

/-- The literal closing delimiter of `READ_REGEX_PATTERN` and of the
pattern used by `parse_nonloadable_file` (`" \)`). -/
def readClose : Bytes := strBytes "\" )"

/-- Marker `b"call PreloadStart()"` asserted by `parse_nonloadable_file`. -/
def startMarker : Bytes := strBytes "call PreloadStart()"

/-- Marker `b"call PreloadEnd("` asserted by `parse_nonloadable_file`. -/
def endMarker : Bytes := strBytes "call PreloadEnd("

/-! ### Substring search primitives (model of `re` literal scanning) -/

/-- The literal `pat` occurs in `s` at index `i` (the whole of `pat` fits). -/
def occursAt (pat s : Bytes) (i : Nat) : Prop :=
  (s.drop i).take pat.length = pat

instance occursAt.decidable (pat s : Bytes) (i : Nat) : Decidable (occursAt pat s i) := by
  unfold occursAt; infer_instance

/-- `pat` occurs somewhere in `s` (at or beyond position `i`). -/
def occursIn (pat s : Bytes) : Prop := ∃ i, occursAt pat s i

/-- First index `≥ i` at which `pat` occurs in `s`, scanning at most `fuel`
positions. -/
def findFrom (pat s : Bytes) (i fuel : Nat) : Option Nat :=
  match fuel with
  | 0 => none
  | fuel' + 1 =>
    if occursAt pat s i then some i else findFrom pat s (i + 1) fuel'

/-- First index at which the literal `pat` occurs in `s` (`none` when it
does not occur); the scan budget `s.length + 1` covers every index at which
a non-empty literal can occur. -/
def findOcc (pat s : Bytes) : Option Nat := findFrom pat s 0 (s.length + 1)

/-- Executable form of Python's `pat in s` on bytes. -/
def containsSub (pat s : Bytes) : Bool := (findOcc pat s).isSome

/-! ### Python-style byte splitting and stripping -/

/-- `content.split(sep, 1)` on bytes (split at the first separator only). -/
def pySplitOnce (sep : Nat) (c : Bytes) : List Bytes :=
  if sep ∈ c then
    [c.takeWhile (fun b => b ≠ sep), (c.dropWhile (fun b => b ≠ sep)).tail]
  else [c]

/-- Fuel-driven form of `content.split(sep)`: each step consumes the
separator, so `c.length + 1` fuel always suffices. -/
def pySplitAllF (sep : Nat) : Nat → Bytes → List Bytes
  | 0, c => [c]
  | fuel + 1, c =>
    if sep ∈ c then
      c.takeWhile (fun b => b ≠ sep) ::
        pySplitAllF sep fuel ((c.dropWhile (fun b => b ≠ sep)).tail)
    else [c]

/-- `content.split(sep)` on bytes (full split). -/
def pySplitAll (sep : Nat) (c : Bytes) : List Bytes := pySplitAllF sep (c.length + 1) c

/-- ASCII whitespace bytes stripped by Python's `bytes.strip()`. -/
def isPySpaceByte (b : Nat) : Bool :=
  b = 32 || b = 9 || b = 10 || b = 13 || b = 11 || b = 12

/-- `content.strip()` on bytes. -/
def pyStrip (c : Bytes) : Bytes :=
  ((c.dropWhile isPySpaceByte).reverse.dropWhile isPySpaceByte).reverse

/-! ### The `re.findall` model

All three patterns of the source (`REGEX_PATTERN`, `READ_REGEX_PATTERN`, and
the pattern inside `parse_nonloadable_file`) have the shape
`literal (lazy group) literal` under `re.DOTALL`.  `re.findall` on such a
pattern repeatedly finds the leftmost occurrence of the opening literal,
then the shortest capture (of at least `minCap` bytes, 0 for `(.*?)` and 1
for `(.+?)`) followed by the closing literal, and resumes after the match. -/

def extractAll (opn cls : Bytes) (minCap : Nat) : Nat → Bytes → List Bytes
  | 0, _ => []
  | fuel + 1, s =>
    match findOcc opn s with
    | none => []
    | some i =>
      let t := s.drop (i + opn.length)
      match findOcc cls (t.drop minCap) with
      | none => []
      | some j =>
        t.take (minCap + j) ::
          extractAll opn cls minCap fuel ((t.drop (minCap + j)).drop cls.length)

/-- `re.findall(REGEX_PATTERN, data, flags=re.DOTALL)` — the captures. -/
def reFindallLoad (s : Bytes) : List Bytes := extractAll patOpen patClose 0 (s.length + 1) s

/-- `re.findall(READ_REGEX_PATTERN, data, flags=re.DOTALL)` — the captures. -/
def reFindallRead (s : Bytes) : List Bytes := extractAll readOpen readClose 0 (s.length + 1) s

/-- `re.findall(rb'call Preload\( "(.+?)" \)', content, flags=re.DOTALL)`
used by `parse_nonloadable_file` — the captures. -/
def reFindallNonloadable (s : Bytes) : List Bytes :=
  extractAll readOpen readClose 1 (s.length + 1) s

/-! ### File codec (`load_file` / `create_file` / `parse_nonloadable_file`) -/

/-- `load_file`, as a function of the file's bytes (`none` = file absent). -/
def load_file (file : Option Bytes) : Option Bytes :=
  match file with
  | none => none
  | some data =>
    let m1 := reFindallLoad data
    if m1 ≠ [] then some m1.flatten
    else
      let m2 := reFindallRead data
      if m2 ≠ [] then some m2.flatten else some []

/-- Fuel-driven form of the 255-byte chunking loop of `create_file`; each
step consumes at least one byte, so `p.length + 1` fuel always suffices. -/
def chunks255F : Nat → Bytes → List Bytes
  | 0, _ => []
  | fuel + 1, p => if p = [] then [] else p.take 255 :: chunks255F fuel (p.drop 255)

/-- The 255-byte chunking performed by `create_file`. -/
def chunks255 (p : Bytes) : List Bytes := chunks255F (p.length + 1) p

/-- The chunk-wrapping loop of `create_file`: each chunk is framed by
`LINE_PREFIX`/`LINE_POSTFIX`. -/
def encBody (cs : List Bytes) : Bytes :=
  cs.foldr (fun c acc => linePre ++ c ++ linePost ++ acc) []

/-- The bytes `create_file` writes for payload `p`. -/
def createData (p : Bytes) : Bytes :=
  filePre ++ encBody (chunks255 p) ++ filePost

/-- `create_file`: `assert len(content) > 0` then write the wrapped chunks.
`.error ()` models the `AssertionError` on empty payloads. -/
def create_file (content : Bytes) : Except Unit Bytes :=
  if content = [] then .error () else .ok (createData content)

/-- `parse_nonloadable_file`, as a function of the file's bytes.
`.error ()` models the `AssertionError` raised when no `Preload` call
matches and the `PreloadStart`/`PreloadEnd` markers are missing. -/
def parse_nonloadable_file (file : Option Bytes) : Except Unit (Option Bytes) :=
  match file with
  | none => .ok none
  | some content =>
    let ms := reFindallNonloadable content
    if ms ≠ [] then .ok (some ms.flatten)
    else if containsSub startMarker content && containsSub endMarker content then .ok none
    else .error ()

/-! ### LiveCode output parsers -/

/-- `parse_indexed_output`: split the response file payload at the first
`FIELD_SEP` into `(index, result)`.  `.error` models the `AssertionError`
on more than two parts (unreachable: `split(sep, 1)` yields at most two). -/
def parse_indexed_output (content : Bytes) : Except Unit (Option Bytes × Option Bytes) :=
  if content = [] then .ok (none, none)
  else
    let lines := pySplitOnce FIELD_SEP content
    if lines.length ≥ 2 then
      if lines.length = 2 then .ok (some (lines.getD 0 []), some (lines.getD 1 []))
      else .error ()
    else if lines.length = 1 then .ok (some (lines.getD 0 []), some [])
    else .ok (none, none)

/-- `parse_bp_threads_file`, as a function of the `bp_threads.txt` bytes. -/
def parse_bp_threads_file (file : Option Bytes) : Except Unit (List Bytes) :=
  match file with
  | none => .ok []
  | some _ =>
    match parse_nonloadable_file file with
    | .error e => .error e
    | .ok none => .ok []
    | .ok (some content) =>
      if content = [] || pyStrip content = [] then .ok []
      else .ok (((pySplitAll FIELD_SEP content).map pyStrip).filter (fun t => t ≠ []))

/-- The dict built by `parse_bp_data_file` (and, minimally, by
`handle_thread_command` when no info is available).  `locals_values = none`
models the absence of the `locals_values` key in the minimal dict
`{'thread_id': new_thread_id}`. -/
structure BpInfo where
  thread_id : String
  bp_id : Option Bytes := none
  stack : Option Bytes := none
  locals_values : Option (List (Bytes × Bytes)) := none
deriving DecidableEq

/-- Python-dict assignment on an insertion-ordered association list. -/
def updateAssoc (l : List (Bytes × Bytes)) (k v : Bytes) : List (Bytes × Bytes) :=
  if l.any (fun p => p.1 = k) then l.map (fun p => if p.1 = k then (k, v) else p)
  else l ++ [(k, v)]

/-- The pair-parsing loop of `parse_bp_data_file`: consume `key, value`
pairs; `bp_id` and `stack` are reserved keys, the rest are locals. -/
def parsePairs : List Bytes → BpInfo → BpInfo
  | key :: value :: rest, info =>
    if key = strBytes "bp_id" then parsePairs rest { info with bp_id := some value }
    else if key = strBytes "stack" then parsePairs rest { info with stack := some value }
    else parsePairs rest
      { info with locals_values := some (updateAssoc (info.locals_values.getD []) key value) }
  | _, info => info

/-- `parse_bp_data_file`, as a function of the `bp_data_<thread_id>.txt`
bytes.  `.ok none` = no usable record yet; `.error` propagates the
`AssertionError` of `parse_nonloadable_file`. -/
def parse_bp_data_file (thread_id : String) (file : Option Bytes) :
    Except Unit (Option BpInfo) :=
  match file with
  | none => .ok none
  | some _ =>
    match parse_nonloadable_file file with
    | .error e => .error e
    | .ok none => .ok none
    | .ok (some content) =>
      if content = [] then .ok none
      else
        let text := pyStrip content
        if text = [] then .ok none
        else
          .ok (some (parsePairs (pySplitAll FIELD_SEP text)
            { thread_id := thread_id, locals_values := some [] }))

/-! ### `bytes.decode('utf-8', errors='replace')`

Python replaces each maximal subpart of an ill-formed sequence with U+FFFD.
The decoder below follows that rule byte by byte. -/

/-- U+FFFD replacement character. -/
def replChar : Char := Char.ofNat 65533

/-- UTF-8 continuation byte. -/
def isCont (b : Nat) : Bool := 128 ≤ b && b ≤ 191

def pyDecodeAux : Nat → Bytes → List Char
  | 0, _ => []
  | _, [] => []
  | fuel + 1, b0 :: rest =>
    if b0 < 128 then Char.ofNat b0 :: pyDecodeAux fuel rest
    else if 194 ≤ b0 ∧ b0 ≤ 223 then
      match rest with
      | b1 :: rest1 =>
        if isCont b1 then Char.ofNat ((b0 - 192) * 64 + (b1 - 128)) :: pyDecodeAux fuel rest1
        else replChar :: pyDecodeAux fuel rest
      | [] => [replChar]
    else if 224 ≤ b0 ∧ b0 ≤ 239 then
      let lo2 := if b0 = 224 then 160 else 128
      let hi2 := if b0 = 237 then 159 else 191
      match rest with
      | b1 :: rest1 =>
        if lo2 ≤ b1 ∧ b1 ≤ hi2 then
          match rest1 with
          | b2 :: rest2 =>
            if isCont b2 then
              Char.ofNat ((b0 - 224) * 4096 + (b1 - 128) * 64 + (b2 - 128)) ::
                pyDecodeAux fuel rest2
            else replChar :: pyDecodeAux fuel rest1
          | [] => [replChar]
        else replChar :: pyDecodeAux fuel rest
      | [] => [replChar]
    else if 240 ≤ b0 ∧ b0 ≤ 244 then
      let lo2 := if b0 = 240 then 144 else 128
      let hi2 := if b0 = 244 then 143 else 191
      match rest with
      | b1 :: rest1 =>
        if lo2 ≤ b1 ∧ b1 ≤ hi2 then
          match rest1 with
          | b2 :: rest2 =>
            if isCont b2 then
              match rest2 with
              | b3 :: rest3 =>
                if isCont b3 then
                  Char.ofNat
                    ((b0 - 240) * 262144 + (b1 - 128) * 4096 + (b2 - 128) * 64 + (b3 - 128)) ::
                    pyDecodeAux fuel rest3
                else replChar :: pyDecodeAux fuel rest2
              | [] => [replChar]
            else replChar :: pyDecodeAux fuel rest1
          | [] => [replChar]
        else replChar :: pyDecodeAux fuel rest
      | [] => [replChar]
    else replChar :: pyDecodeAux fuel rest

/-- `bs.decode('utf-8', errors='replace')`. -/
def pyDecodeReplace (bs : Bytes) : String := String.mk (pyDecodeAux (bs.length + 1) bs)

/-! ### Session state and the correlated send/receive -/

/-- The module-level mutable state of the interpreter that the breakpoint
protocol touches: `nextFile`, `bp_command_indices`, `current_breakpoint`,
`pending_breakpoints`, `thread_state_is_bp` (the set of keys mapped to
`True`). -/
structure InterpState where
  nextFile : Nat
  bp_command_indices : List (String × Nat)
  current_breakpoint : Option (String × BpInfo)
  pending_breakpoints : List (String × BpInfo)
  thread_state_is_bp : List String
deriving DecidableEq

/-- The state at interpreter start (and after `restart`). -/
def initState : InterpState := ⟨0, [], none, [], []⟩

/-- `d.get(k, 0)` on the per-thread command-index dict. -/
def dictGet (d : List (String × Nat)) (k : String) : Nat :=
  ((d.find? (fun p => p.1 = k)).map Prod.snd).getD 0

/-- `d[k] = v` on the per-thread command-index dict. -/
def dictSet (d : List (String × Nat)) (k : String) (v : Nat) : List (String × Nat) :=
  if d.any (fun p => p.1 = k) then d.map (fun p => if p.1 = k then (k, v) else p)
  else d ++ [(k, v)]

/-- Observable outcome of one `send_data_to_game` call. -/
inductive SendResult where
  /-- `data == ""`: returns `None` before touching any channel. -/
  | noData
  /-- A poll observation carried the expected correlation tag; the call
  returns the decoded result (`none` when the result bytes are empty). -/
  | matched (result : Option String)
  /-- The poll budget ran out: prints the timeout message, returns `None`. -/
  | timedOut
  /-- An `AssertionError` from parsing a response file propagated out. -/
  | raised
deriving DecidableEq

/-- The poll loop of `send_data_to_game`: one list entry per iteration,
carrying the bytes of `out.txt` / `bp_out.txt` observed at that iteration
(`none` = the file does not exist).  An empty list is an elapsed timeout. -/
def sendPollLoop (expected : String) : List (Option Bytes) → SendResult
  | [] => .timedOut
  | ob :: rest =>
    match ob with
    | none => sendPollLoop expected rest
    | some fileBytes =>
      match parse_nonloadable_file (some fileBytes) with
      | .error _ => .raised
      | .ok none => sendPollLoop expected rest
      | .ok (some content) =>
        if content = [] then sendPollLoop expected rest
        else
          match parse_indexed_output content with
          | .error _ => .raised
          | .ok (idx?, res?) =>
            match idx? with
            | none => sendPollLoop expected rest
            | some idx =>
              if idx ≠ [] ∧ pyDecodeReplace idx = expected then
                .matched (match res? with
                  | some r => if r = [] then none else some (pyDecodeReplace r)
                  | none => none)
              else sendPollLoop expected rest

/-- `send_data_to_game(data)`: allocate the channel's next index, then poll
for a response whose correlation tag is `"{thread_id}:{cmd_index}"` (on a
halted thread's channel) or `"{cmd_index}"` (on the default channel). -/
def send_data_to_game (data : String) (polls : List (Option Bytes)) (st : InterpState) :
    SendResult × InterpState :=
  if data = "" then (.noData, st)
  else
    match st.current_breakpoint with
    | some (tid, _) =>
      let cmd_index := dictGet st.bp_command_indices tid
      let st' := { st with
        bp_command_indices := dictSet st.bp_command_indices tid (cmd_index + 1) }
      (sendPollLoop (tid ++ ":" ++ toString cmd_index) polls, st')
    | none =>
      let cmd_index := st.nextFile
      let st' := { st with nextFile := cmd_index + 1 }
      (sendPollLoop (toString cmd_index) polls, st')

/-- The channel counter `send_data_to_game` reads and bumps: the per-thread
counter when a breakpoint context is current, else the global `nextFile`. -/
def channelCounter (st : InterpState) : Nat :=
  match st.current_breakpoint with
  | some (tid, _) => dictGet st.bp_command_indices tid
  | none => st.nextFile

/-- The correlation tag `send_data_to_game` expects for its next request. -/
def expectedTag (st : InterpState) : String :=
  match st.current_breakpoint with
  | some (tid, _) => tid ++ ":" ++ toString (dictGet st.bp_command_indices tid)
  | none => toString st.nextFile

/-! ### Session state machine -/

/-- `handle_breakpoint_event`: a newly observed halt becomes current when
no context is current, otherwise it is appended to the pending queue. -/
def handle_breakpoint_event (thread_id : String) (info : BpInfo) (st : InterpState) :
    InterpState :=
  match st.current_breakpoint with
  | none => { st with current_breakpoint := some (thread_id, info) }
  | some _ =>
    { st with pending_breakpoints := st.pending_breakpoints ++ [(thread_id, info)] }

/-- The file-system inputs one poll cycle reads: the bytes of
`bp_threads.txt` and of each `bp_data_<thread_id>.txt`. -/
structure FsEnv where
  bpThreadsFile : Option Bytes
  bpDataFile : String → Option Bytes

/-- The `for thread_id_bytes in parse_bp_threads_file()` loop of
`check_for_new_breakpoints`. -/
def checkLoop (env : FsEnv) : List Bytes → InterpState → Except Unit InterpState
  | [], st => .ok st
  | tidBytes :: rest, st =>
    match parse_bp_data_file (pyDecodeReplace tidBytes)
        (env.bpDataFile (pyDecodeReplace tidBytes)) with
    | .error e => .error e
    | .ok none => checkLoop env rest st
    | .ok (some info) =>
      if pyDecodeReplace tidBytes ∈ st.thread_state_is_bp then checkLoop env rest st
      else
        checkLoop env rest
          (handle_breakpoint_event (pyDecodeReplace tidBytes) info
            { st with
              thread_state_is_bp := pyDecodeReplace tidBytes :: st.thread_state_is_bp })

/-- `check_for_new_breakpoints`: poll the announcement file and observe
each listed thread that is not already flagged halted. -/
def check_for_new_breakpoints (env : FsEnv) (st : InterpState) : Except Unit InterpState :=
  match parse_bp_threads_file env.bpThreadsFile with
  | .error e => .error e
  | .ok tids => checkLoop env tids st

/-- `handle_continue_command`: send `"continue"` on the current channel,
clear the thread's halted flag, then pop the head of the pending queue as
the new current (or clear the current context). -/
def handle_continue_command (polls : List (Option Bytes)) (st : InterpState) :
    Except Unit InterpState :=
  match st.current_breakpoint with
  | none => .ok st
  | some (tid, _) =>
    if (send_data_to_game "continue" polls st).1 = .raised then .error ()
    else
      match (send_data_to_game "continue" polls st).2.pending_breakpoints with
      | next :: rest =>
        .ok { (send_data_to_game "continue" polls st).2 with
              thread_state_is_bp :=
                (send_data_to_game "continue" polls st).2.thread_state_is_bp.erase tid,
              current_breakpoint := some next, pending_breakpoints := rest }
      | [] =>
        .ok { (send_data_to_game "continue" polls st).2 with
              thread_state_is_bp :=
                (send_data_to_game "continue" polls st).2.thread_state_is_bp.erase tid,
              current_breakpoint := none }

/-- `handle_thread_command`: switch the current context to `new_thread_id`
when the announcement file lists it; otherwise report "not found" and leave
the state unchanged. -/
def handle_thread_command (new_thread_id : String) (env : FsEnv) (st : InterpState) :
    Except Unit InterpState :=
  match parse_bp_threads_file env.bpThreadsFile with
  | .error e => .error e
  | .ok threads =>
    let threads_str := threads.map pyDecodeReplace
    if new_thread_id ∈ threads_str then
      match parse_bp_data_file new_thread_id (env.bpDataFile new_thread_id) with
      | .error e => .error e
      | .ok (some new_info) =>
        .ok { st with current_breakpoint := some (new_thread_id, new_info) }
      | .ok none =>
        .ok { st with current_breakpoint := some (new_thread_id, { thread_id := new_thread_id }) }
    else .ok st

/-- One operation of the session state machine, with the external inputs
it reads. -/
inductive SessionOp where
  /-- One poll cycle (`check_for_new_breakpoints`); observes new halts. -/
  | poll (env : FsEnv)
  /-- `handle_continue_command` (operator `continue`). -/
  | resume (polls : List (Option Bytes))
  /-- `handle_thread_command` (operator `thread <id>`). -/
  | switch (tid : String) (env : FsEnv)

def runOp (op : SessionOp) (st : InterpState) : Except Unit InterpState :=
  match op with
  | .poll env => check_for_new_breakpoints env st
  | .resume polls => handle_continue_command polls st
  | .switch tid env => handle_thread_command tid env st

def runOps : List SessionOp → InterpState → Except Unit InterpState
  | [], st => .ok st
  | op :: rest, st =>
    match runOp op st with
    | .error e => .error e
    | .ok st' => runOps rest st'

/-- The operation is a `switch` (used to state which operation sequences
preserve the session invariant). -/
def SessionOp.isSwitch : SessionOp → Prop
  | .switch _ _ => True
  | _ => False

/-! ### Function-boundary locator (`find_lua_function`)

Source text is a `List Char`.  The character classes of Python's `re`
(`\s`, `\w`, `\b`) are modelled over the ASCII range, which covers Lua
sources. -/

/-- Line-break characters of `str.splitlines`. -/
def isLineBreakChar (c : Char) : Bool :=
  c.toNat = 10 || c.toNat = 11 || c.toNat = 12 || c.toNat = 13 ||
  c.toNat = 28 || c.toNat = 29 || c.toNat = 30 || c.toNat = 133 ||
  c.toNat = 8232 || c.toNat = 8233

/-- `content.splitlines(keepends=True)`. -/
def pySplitlines : List Char → List (List Char)
  | [] => []
  | [c] => [[c]]
  | c :: d :: rest =>
    if isLineBreakChar c then
      if c = Char.ofNat 13 ∧ d = Char.ofNat 10 then [c, d] :: pySplitlines rest
      else [c] :: pySplitlines (d :: rest)
    else
      match pySplitlines (d :: rest) with
      | [] => [[c]]
      | l :: ls => (c :: l) :: ls

/-- `\w` of Python `re`, over ASCII. -/
def isWordChar (c : Char) : Bool :=
  (97 ≤ c.toNat && c.toNat ≤ 122) || (65 ≤ c.toNat && c.toNat ≤ 90) ||
  (48 ≤ c.toNat && c.toNat ≤ 57) || c.toNat = 95

/-- `\s` of Python `re`, over ASCII. -/
def isPySpaceChar (c : Char) : Bool :=
  c.toNat = 32 || c.toNat = 9 || c.toNat = 10 || c.toNat = 13 ||
  c.toNat = 11 || c.toNat = 12

/-- Is the character at index `j` (if any) a word character? -/
def isWordAt (line : List Char) (j : Nat) : Bool :=
  match (line.drop j).head? with
  | some c => isWordChar c
  | none => false

/-- `\b` of Python `re` at position `j`. -/
def boundaryAt (line : List Char) (j : Nat) : Bool :=
  (if j = 0 then false else isWordAt line (j - 1)) != isWordAt line j

/-- `re.match(r'\s*function\b', line)`: the line opens (after optional
whitespace) with the token `function`. -/
def matchesDeclLine (line : List Char) : Bool :=
  let rest := line.dropWhile isPySpaceChar
  decide (rest.take 8 = "function".data) &&
    (match (rest.drop 8).head? with
     | some c => !isWordChar c
     | none => true)

/-- `re.match(r'\s*end\b', line)`: the line opens (after optional
whitespace) with the token `end`. -/
def matchesEndLine (line : List Char) : Bool :=
  let rest := line.dropWhile isPySpaceChar
  decide (rest.take 3 = "end".data) &&
    (match (rest.drop 3).head? with
     | some c => !isWordChar c
     | none => true)

/-- The pattern `rf'\bfunction\s+{re.escape(func_name)}\b'` matches in
`line` starting at index `i`. -/
def matchNamePatAt (name line : List Char) (i : Nat) : Bool :=
  boundaryAt line i &&
  decide ((line.drop i).take 8 = "function".data) &&
  (List.range (line.length + 1)).any (fun k =>
    decide (1 ≤ k) &&
    decide (((line.drop (i + 8)).take k).length = k) &&
    ((line.drop (i + 8)).take k).all isPySpaceChar &&
    decide ((line.drop (i + 8 + k)).take name.length = name) &&
    boundaryAt line (i + 8 + k + name.length))

/-- `re.search(rf'\bfunction\s+{re.escape(func_name)}\b', line)`. -/
def searchFuncName (name line : List Char) : Bool :=
  (List.range (line.length + 1)).any (fun i => matchNamePatAt name line i)

/-- Upward scan of the by-line branch (`for i in range(line_number - 1,
-1, -1)`); entered with `i < lines.length`. -/
def findDeclFrom (lines : List (List Char)) : Nat → Option Nat
  | 0 => if matchesDeclLine (lines.getD 0 []) then some 0 else none
  | i + 1 =>
    if matchesDeclLine (lines.getD (i + 1) []) then some (i + 1)
    else findDeclFrom lines i

/-- By-name scan (`for i, line in enumerate(lines)` with `re.search`). -/
def firstSearchIdx (name : List Char) : List (List Char) → Nat → Option Nat
  | [], _ => none
  | l :: rest, i => if searchFuncName name l then some i else firstSearchIdx name rest (i + 1)

/-- The forward depth scan (`# Find the matching 'end'`).  Each line
opening with the token `function` increments the depth, each line opening
with the token `end` decrements it; the scan stops at the line where the
depth returns to exactly zero.  Returns the index of that line. -/
def scanEndF (lines : List (List Char)) : Nat → Nat → Int → Option Nat
  | 0, _, _ => none
  | fuel + 1, j, depth =>
    if j < lines.length then
      let line := lines.getD j []
      if matchesDeclLine line then scanEndF lines fuel (j + 1) (depth + 1)
      else if matchesEndLine line then
        if depth - 1 = 0 then some j else scanEndF lines fuel (j + 1) (depth - 1)
      else scanEndF lines fuel (j + 1) depth
    else none

def scanEndAux (lines : List (List Char)) (j : Nat) (depth : Int) : Option Nat :=
  scanEndF lines (lines.length + 1) j depth

/-- Total length of the first `n` lines (character offset of line `n`). -/
def prefixLen (lines : List (List Char)) (n : Nat) : Nat :=
  ((lines.take n).map List.length).sum

/-- `find_lua_function(content, func_name, line_number)`.
Returns `(start_index, end_index, body_text)`; `.ok none` is Python's
`None`, `.error ()` models the `IndexError` when `line_number - 1` is past
the last line. -/
def find_lua_function (content : List Char) (func_name : Option (List Char))
    (line_number : Option Nat) : Except Unit (Option (Nat × Nat × List Char)) :=
  let lines := pySplitlines content
  let funcLine? : Except Unit (Option Nat) :=
    match line_number with
    | some ln =>
      if ln = 0 then .ok none
      else if ln - 1 < lines.length then .ok (findDeclFrom lines (ln - 1))
      else .error ()
    | none =>
      match func_name with
      | some name => .ok (firstSearchIdx name lines 0)
      | none => .ok none
  match funcLine? with
  | .error e => .error e
  | .ok none => .ok none
  | .ok (some func_line) =>
    match scanEndAux lines func_line 0 with
    | none => .ok none
    | some j =>
      .ok (some (prefixLen lines func_line, prefixLen lines (j + 1),
        ((lines.drop func_line).take (j + 1 - func_line)).flatten))

/-! ### Concrete fixtures used by witnesses and counterexamples -/

/-- A minimal observed record for thread `A`. -/
def infoA : BpInfo := { thread_id := "A", locals_values := some [] }

/-- A minimal observed record for thread `B`. -/
def infoB : BpInfo := { thread_id := "B", locals_values := some [] }

/-- A minimal observed record for thread `C`. -/
def infoC : BpInfo := { thread_id := "C", locals_values := some [] }

/-- A session state in which `A` is current and `B` is queued (both
flagged halted). -/
def stAB : InterpState :=
  { nextFile := 0, bp_command_indices := [],
    current_breakpoint := some ("A", infoA),
    pending_breakpoints := [("B", infoB)],
    thread_state_is_bp := ["A", "B"] }

/-- An announcement environment listing only thread `B`, whose record file
carries `bp_id = b2`. -/
def envB : FsEnv :=
  { bpThreadsFile := some (strBytes "call Preload( \"B\" )"),
    bpDataFile := fun _ => some (strBytes "call Preload( \"bp_id\x1Fb2\" )") }

/-- The record `envB`'s data file parses to. -/
def infoB2 : BpInfo :=
  { thread_id := "B", bp_id := some (strBytes "b2"), locals_values := some [] }


/-- The record `envT`'s data file parses to (thread `T1`). -/
def infoT1 : BpInfo :=
  { thread_id := "T1", bp_id := some (strBytes "b1"), locals_values := some [] }

/-- An announcement environment listing only `T1` with a parsable record. -/
def envT : FsEnv :=
  { bpThreadsFile := some (strBytes "call Preload( \"T1\" )"),
    bpDataFile := fun _ => some (strBytes "call Preload( \"bp_id\x1Fb1\" )") }

/-- An announcement environment listing `A` and `B`, both with parsable
records. -/
def envAB : FsEnv :=
  { bpThreadsFile := some (strBytes "call Preload( \"A\x1FB\" )"),
    bpDataFile := fun _ => some (strBytes "call Preload( \"bp_id\x1Fb1\" )") }

/-- The record `envAB`'s data file parses to for thread `A`. -/
def infoPA : BpInfo :=
  { thread_id := "A", bp_id := some (strBytes "b1"), locals_values := some [] }

/-- The record `envAB`'s data file parses to for thread `B`. -/
def infoPB : BpInfo :=
  { thread_id := "B", bp_id := some (strBytes "b1"), locals_values := some [] }

/-- The thread ids held by the session: the current context (if any)
followed by the pending queue, in order. -/
def sessionTids (st : InterpState) : List String :=
  (match st.current_breakpoint with
   | some c => [c.1]
   | none => []) ++ st.pending_breakpoints.map Prod.fst

/-- The session invariant of the spec: the halted-flag map and the
current-plus-pending registry hold exactly the same threads, without
duplicates. -/
def SessionInv (st : InterpState) : Prop :=
  st.thread_state_is_bp.Nodup ∧ (sessionTids st).Nodup ∧
  ∀ t, t ∈ st.thread_state_is_bp ↔ t ∈ sessionTids st


/-- A sequence of `send_data_to_game` calls on a fixed session context:
returns the channel indices consumed, in order, and the final state. -/
def runSends (st : InterpState) : List (String × List (Option Bytes)) → List Nat × InterpState
  | [] => ([], st)
  | (data, polls) :: rest =>
    let st1 := (send_data_to_game data polls st).2
    let r := runSends st1 rest
    (channelCounter st :: r.1, r.2)

/-- A well-formed default-channel response file carrying tag `0` and
result `1000`. -/
def outFile0 : Bytes :=
  strBytes "call PreloadStart()\ncall Preload( \"0\x1F1000\" )\ncall PreloadEnd( 0.0 )"

/-- A Lua source with a plainly nested `function inner()` inside `outer`. -/
def srcNested : List Char :=
  ("function outer()\n  function inner()\n  end\n  return 1\nend").data

/-- The same source but with the nested callable declared via
`local function inner()`. -/
def srcLocalNested : List Char :=
  ("function outer()\n  local function inner()\n  end\n  return 1\nend").data

/-- A declaration with no closing `end` line. -/
def srcNoEnd : List Char := ("function outer()\n  return 1\n").data

/-! ### Helper lemmas about occurrences -/

theorem findFrom_eq_some {pat s : Bytes} {i fuel k : Nat}
    (h : findFrom pat s i fuel = some k) :
    occursAt pat s k ∧ i ≤ k ∧ ∀ j, i ≤ j → j < k → ¬ occursAt pat s j := by
  induction fuel generalizing i with
  | zero => simp [findFrom] at h
  | succ fuel ih =>
    by_cases hocc : occursAt pat s i
    · simp [findFrom, hocc] at h
      subst h
      exact ⟨hocc, le_refl _, fun j h1 h2 => absurd (lt_of_le_of_lt h1 h2) (lt_irrefl _)⟩
    · simp [findFrom, hocc] at h
      obtain ⟨h1, h2, h3⟩ := ih h
      refine ⟨h1, le_trans (Nat.le_succ i) h2, fun j hj1 hj2 => ?_⟩
      rcases Nat.eq_or_lt_of_le hj1 with rfl | hlt
      · exact hocc
      · exact h3 j hlt hj2

theorem findFrom_of_occurs {pat s : Bytes} {i fuel k : Nat}
    (hocc : occursAt pat s k) (hik : i ≤ k) (hfuel : k < i + fuel)
    (hmin : ∀ j, i ≤ j → j < k → ¬ occursAt pat s j) :
    findFrom pat s i fuel = some k := by
  induction fuel generalizing i with
  | zero => omega
  | succ fuel ih =>
    rcases Nat.eq_or_lt_of_le hik with rfl | hlt
    · simp [findFrom, hocc]
    · have hni : ¬ occursAt pat s i := hmin i (le_refl _) hlt
      simp [findFrom, hni]
      exact ih hlt (by omega) (fun j hj1 hj2 => hmin j (le_trans (Nat.le_succ i) hj1) hj2)

theorem findFrom_eq_none {pat s : Bytes} {i fuel : Nat}
    (h : ∀ j, i ≤ j → j < i + fuel → ¬ occursAt pat s j) :
    findFrom pat s i fuel = none := by
  induction fuel generalizing i with
  | zero => rfl
  | succ fuel ih =>
    have hni : ¬ occursAt pat s i := h i (le_refl _) (by omega)
    simp [findFrom, hni]
    exact ih (fun j hj1 hj2 => h j (le_trans (Nat.le_succ i) hj1) (by omega))

theorem occursAt_le_length {pat s : Bytes} {i : Nat} (hpat : pat ≠ [])
    (h : occursAt pat s i) : i + pat.length ≤ s.length := by
  unfold occursAt at h
  have hlen : ((s.drop i).take pat.length).length = pat.length := by rw [h]
  rw [List.length_take, List.length_drop] at hlen
  have h2 := min_le_right pat.length (s.length - i)
  rw [hlen] at h2
  have : 0 < pat.length := List.length_pos.mpr hpat
  omega

theorem findOcc_eq_some {pat s : Bytes} {k : Nat} (h : findOcc pat s = some k) :
    occursAt pat s k ∧ ∀ j, j < k → ¬ occursAt pat s j := by
  obtain ⟨h1, _, h3⟩ := findFrom_eq_some h
  exact ⟨h1, fun j hj => h3 j (Nat.zero_le _) hj⟩

theorem findOcc_of_occurs {pat s : Bytes} {k : Nat} (hpat : pat ≠ [])
    (hocc : occursAt pat s k) (hmin : ∀ j, j < k → ¬ occursAt pat s j) :
    findOcc pat s = some k := by
  have hk : k + pat.length ≤ s.length := occursAt_le_length hpat hocc
  have : 0 < pat.length := List.length_pos.mpr hpat
  exact findFrom_of_occurs hocc (Nat.zero_le _) (by omega)
    (fun j _ hj => hmin j hj)

theorem findOcc_eq_none {pat s : Bytes}
    (h : ∀ j, ¬ occursAt pat s j) : findOcc pat s = none :=
  findFrom_eq_none (fun j _ _ => h j)

theorem dropWhile_mem_sep {sep : Nat} {c : Bytes} (h : sep ∈ c) :
    ∃ rest, c.dropWhile (fun b => b ≠ sep) = sep :: rest := by
  induction c with
  | nil => cases h
  | cons a c ih =>
    by_cases ha : a = sep
    · subst ha
      exact ⟨c, by simp [List.dropWhile]⟩
    · have : sep ∈ c := by
        rcases List.mem_cons.mp h with h' | h'
        · exact absurd h'.symm ha
        · exact h'
      obtain ⟨rest, hrest⟩ := ih this
      refine ⟨rest, ?_⟩
      simpa [List.dropWhile, ha] using hrest


theorem not_occursAt_of_head {pat s : Bytes} {i : Nat} (hpat : pat ≠ [])
    (h : pat.head? ≠ (s.drop i).head?) : ¬ occursAt pat s i := by
  intro hocc
  unfold occursAt at hocc
  cases hp : pat with
  | nil => exact hpat hp
  | cons p0 pt =>
    rw [hp] at hocc
    cases hs : s.drop i with
    | nil => rw [hs] at hocc; simp at hocc
    | cons s0 st =>
      rw [hs] at hocc
      simp only [List.length_cons, List.take_succ_cons] at hocc
      injection hocc with h1 h2
      apply h
      rw [hp, hs, h1]
      rfl

theorem occursAt_append_of_fit {pat A B : Bytes} {i : Nat}
    (hlen : i + pat.length ≤ A.length) :
    occursAt pat (A ++ B) i ↔ occursAt pat A i := by
  unfold occursAt
  rw [List.drop_append_of_le_length (by omega), List.take_append_of_le_length]
  rw [List.length_drop]; omega

theorem occursAt_append_shift {pat A B : Bytes} {j : Nat} :
    occursAt pat (A ++ B) (A.length + j) ↔ occursAt pat B j := by
  unfold occursAt
  rw [← List.drop_drop, List.drop_left]

theorem occursAt_drop_shift {pat p : Bytes} {m i : Nat} :
    occursAt pat (p.drop m) i ↔ occursAt pat p (m + i) := by
  unfold occursAt
  rw [List.drop_drop]

theorem occursAt_take_imp {pat p : Bytes} {n i : Nat} (hpat : pat ≠ [])
    (h : occursAt pat (p.take n) i) : occursAt pat p i := by
  have hle := occursAt_le_length hpat h
  rw [List.length_take] at hle
  unfold occursAt at h ⊢
  rw [List.drop_take] at h
  rw [List.take_take] at h
  rw [min_eq_left (by omega)] at h
  exact h

theorem no_occ_of_bounded {pat s : Bytes} (hpat : pat ≠ [])
    (h : ∀ j < s.length, ¬ occursAt pat s j) : ∀ j, ¬ occursAt pat s j := by
  intro j hocc
  have hle := occursAt_le_length hpat hocc
  have : 0 < pat.length := List.length_pos.mpr hpat
  exact h j (by omega) hocc

theorem containsSub_eq_false_iff {pat s : Bytes} (hpat : pat ≠ []) :
    containsSub pat s = false ↔ ∀ i, ¬ occursAt pat s i := by
  constructor
  · intro h i hocc
    classical
    by_cases hex : ∃ k, occursAt pat s k
    · obtain ⟨k, hk⟩ := hex
      have hleast := Nat.find_spec (⟨k, hk⟩ : ∃ k, occursAt pat s k)
      have := findOcc_of_occurs hpat hleast (fun j hj => Nat.find_min _ hj)
      unfold containsSub at h
      rw [this] at h
      simp at h
    · exact hex ⟨i, hocc⟩
  · intro h
    unfold containsSub
    rw [findOcc_eq_none h]
    rfl

theorem occursAt_of_prefix_pat {pat1 pat2 s : Bytes} {i : Nat}
    (hpre : pat2.take pat1.length = pat1) (h : occursAt pat2 s i) :
    occursAt pat1 s i := by
  have hlen : pat1.length ≤ pat2.length := by
    have h2 := congrArg List.length hpre
    rw [List.length_take] at h2
    have := min_le_right pat1.length pat2.length
    omega
  unfold occursAt at h ⊢
  calc (s.drop i).take pat1.length
      = ((s.drop i).take pat2.length).take pat1.length := by
        rw [List.take_take, min_eq_left hlen]
    _ = pat2.take pat1.length := by rw [h]
    _ = pat1 := hpre

theorem pySplitOnce_length_le {sep : Nat} {c : Bytes} :
    (pySplitOnce sep c).length ≤ 2 := by
  unfold pySplitOnce
  by_cases h : sep ∈ c <;> simp [h]

theorem pySplitOnce_reassemble {sep : Nat} {c : Bytes} (h : sep ∈ c) :
    c.takeWhile (fun b => b ≠ sep) ++
      sep :: (c.dropWhile (fun b => b ≠ sep)).tail = c := by
  obtain ⟨rest, hrest⟩ := dropWhile_mem_sep h
  conv_rhs => rw [← @List.takeWhile_append_dropWhile _ (fun b => decide (b ≠ sep)) c]
  rw [hrest]
  rfl

theorem extractAll_eq_nil_of_no_open {opn cls s : Bytes} {minCap fuel : Nat}
    (h : ∀ j, ¬ occursAt opn s j) : extractAll opn cls minCap fuel s = [] := by
  cases fuel with
  | zero => rfl
  | succ fuel =>
    unfold extractAll
    rw [findOcc_eq_none h]

theorem readOpen_take_patOpen : patOpen.take readOpen.length = readOpen := by decide

theorem no_readOpen_no_patOpen {s : Bytes} (h : ∀ j, ¬ occursAt readOpen s j) :
    ∀ j, ¬ occursAt patOpen s j :=
  fun j hocc => h j (occursAt_of_prefix_pat readOpen_take_patOpen hocc)

theorem send_state_fields (data : String) (polls : List (Option Bytes)) (st : InterpState)
    (h : data ≠ "") :
    (send_data_to_game data polls st).2.current_breakpoint = st.current_breakpoint ∧
    (send_data_to_game data polls st).2.pending_breakpoints = st.pending_breakpoints ∧
    (send_data_to_game data polls st).2.thread_state_is_bp = st.thread_state_is_bp ∧
    ((send_data_to_game data polls st).2.nextFile = st.nextFile ∨
      st.current_breakpoint = none) := by
  unfold send_data_to_game
  rw [if_neg h]
  split
  · exact ⟨rfl, rfl, rfl, Or.inl rfl⟩
  · exact ⟨rfl, rfl, rfl, Or.inr (by assumption)⟩

theorem continue_ok_shape {polls : List (Option Bytes)} {st st' : InterpState}
    {t : String} {i : BpInfo} (hcur : st.current_breakpoint = some (t, i))
    (hok : handle_continue_command polls st = .ok st') :
    st'.current_breakpoint = st.pending_breakpoints.head? ∧
    st'.pending_breakpoints = st.pending_breakpoints.tail ∧
    st'.thread_state_is_bp = st.thread_state_is_bp.erase t := by
  have hfields := send_state_fields "continue" polls st (by decide)
  unfold handle_continue_command at hok
  rw [hcur] at hok
  simp only [] at hok
  by_cases hraised : (send_data_to_game "continue" polls st).1 = SendResult.raised
  · rw [if_pos hraised] at hok
    cases hok
  · rw [if_neg hraised] at hok
    rcases hpend : (send_data_to_game "continue" polls st).2.pending_breakpoints
        with _ | ⟨nb, rest⟩ <;> rw [hpend] at hok
    · injection hok with hok
      subst hok
      rw [hfields.2.1] at hpend
      simp [hpend, hfields.2.2.1]
    · injection hok with hok
      subst hok
      rw [hfields.2.1] at hpend
      simp [hpend, hfields.2.2.1]

theorem hbe_fields (t : String) (i : BpInfo) (st : InterpState) :
    (handle_breakpoint_event t i st).thread_state_is_bp = st.thread_state_is_bp ∧
    (handle_breakpoint_event t i st).nextFile = st.nextFile ∧
    (handle_breakpoint_event t i st).bp_command_indices = st.bp_command_indices := by
  unfold handle_breakpoint_event
  split <;> exact ⟨rfl, rfl, rfl⟩

theorem continue_none {polls : List (Option Bytes)} {st st' : InterpState}
    (hcur : st.current_breakpoint = none)
    (h : handle_continue_command polls st = .ok st') : st' = st := by
  unfold handle_continue_command at h
  rw [hcur] at h
  cases h
  rfl

theorem switch_fields {tid : String} {env : FsEnv} {st st' : InterpState}
    (h : handle_thread_command tid env st = .ok st') :
    st'.thread_state_is_bp = st.thread_state_is_bp ∧
    st'.pending_breakpoints = st.pending_breakpoints ∧
    st'.bp_command_indices = st.bp_command_indices ∧
    st'.nextFile = st.nextFile := by
  unfold handle_thread_command at h
  cases hpt : parse_bp_threads_file env.bpThreadsFile with
  | error e =>
    rw [hpt] at h
    cases h
  | ok tl =>
    rw [hpt] at h
    simp only [] at h
    by_cases hmem : tid ∈ tl.map pyDecodeReplace
    · rw [if_pos hmem] at h
      cases hpd : parse_bp_data_file tid (env.bpDataFile tid) with
      | error e =>
        rw [hpd] at h
        cases h
      | ok oi =>
        rw [hpd] at h
        cases oi with
        | some info =>
          cases h
          exact ⟨rfl, rfl, rfl, rfl⟩
        | none =>
          cases h
          exact ⟨rfl, rfl, rfl, rfl⟩
    · rw [if_neg hmem] at h
      cases h
      exact ⟨rfl, rfl, rfl, rfl⟩

theorem checkLoop_flags_mono {env : FsEnv} {l : List Bytes} {st st' : InterpState}
    (h : checkLoop env l st = .ok st') :
    ∀ t, t ∈ st.thread_state_is_bp → t ∈ st'.thread_state_is_bp := by
  induction l generalizing st with
  | nil =>
    unfold checkLoop at h
    cases h
    exact fun t ht => ht
  | cons tb rest ih =>
    unfold checkLoop at h
    cases hp : parse_bp_data_file (pyDecodeReplace tb)
        (env.bpDataFile (pyDecodeReplace tb)) with
    | error e =>
      rw [hp] at h
      cases h
    | ok oi =>
      rw [hp] at h
      cases oi with
      | none => exact ih h
      | some info =>
        simp only [] at h
        by_cases hmem : pyDecodeReplace tb ∈ st.thread_state_is_bp
        · rw [if_pos hmem] at h
          exact ih h
        · rw [if_neg hmem] at h
          intro t ht
          refine ih h t ?_
          rw [(hbe_fields _ _ _).1]
          exact List.mem_cons_of_mem _ ht

theorem checkLoop_flags_new {env : FsEnv} {l : List Bytes} {st st' : InterpState}
    (h : checkLoop env l st = .ok st') :
    ∀ t, t ∈ st'.thread_state_is_bp →
      t ∈ st.thread_state_is_bp ∨
      (t ∈ l.map pyDecodeReplace ∧
        ∃ info, parse_bp_data_file t (env.bpDataFile t) = .ok (some info)) := by
  induction l generalizing st with
  | nil =>
    unfold checkLoop at h
    cases h
    exact fun t ht => Or.inl ht
  | cons tb rest ih =>
    unfold checkLoop at h
    cases hp : parse_bp_data_file (pyDecodeReplace tb)
        (env.bpDataFile (pyDecodeReplace tb)) with
    | error e =>
      rw [hp] at h
      cases h
    | ok oi =>
      rw [hp] at h
      cases oi with
      | none =>
        intro t ht
        rcases ih h t ht with hl | ⟨hm, hinfo⟩
        · exact Or.inl hl
        · exact Or.inr ⟨List.mem_cons_of_mem _ hm, hinfo⟩
      | some info =>
        simp only [] at h
        by_cases hmem : pyDecodeReplace tb ∈ st.thread_state_is_bp
        · rw [if_pos hmem] at h
          intro t ht
          rcases ih h t ht with hl | ⟨hm, hinfo⟩
          · exact Or.inl hl
          · exact Or.inr ⟨List.mem_cons_of_mem _ hm, hinfo⟩
        · rw [if_neg hmem] at h
          intro t ht
          rcases ih h t ht with hl | ⟨hm, hinfo⟩
          · rw [(hbe_fields _ _ _).1] at hl
            rcases List.mem_cons.mp hl with rfl | hl
            · exact Or.inr ⟨List.mem_cons_self _ _, ⟨info, hp⟩⟩
            · exact Or.inl hl
          · exact Or.inr ⟨List.mem_cons_of_mem _ hm, hinfo⟩

theorem sessionTids_some {st : InterpState} {c : String × BpInfo}
    (h : st.current_breakpoint = some c) :
    sessionTids st = c.1 :: st.pending_breakpoints.map Prod.fst := by
  unfold sessionTids
  rw [h]
  rfl

theorem sessionTids_none {st : InterpState} (h : st.current_breakpoint = none) :
    sessionTids st = st.pending_breakpoints.map Prod.fst := by
  unfold sessionTids
  rw [h]
  rfl

theorem hbe_inv {t : String} {i : BpInfo} {st : InterpState}
    (hInv : SessionInv st) (hnot : t ∉ st.thread_state_is_bp) :
    SessionInv (handle_breakpoint_event t i
      { st with thread_state_is_bp := t :: st.thread_state_is_bp }) := by
  obtain ⟨hnd, hndT, hiff⟩ := hInv
  have htT : t ∉ sessionTids st := fun hmem => hnot ((hiff t).mpr hmem)
  unfold handle_breakpoint_event
  cases hcur : st.current_breakpoint with
  | none =>
    have hT := sessionTids_none hcur
    rw [hT] at htT hndT hiff
    simp only [hcur]
    refine ⟨List.nodup_cons.mpr ⟨hnot, hnd⟩, ?_, ?_⟩
    · show (t :: st.pending_breakpoints.map Prod.fst).Nodup
      exact List.nodup_cons.mpr ⟨htT, hndT⟩
    · intro u
      show u ∈ t :: st.thread_state_is_bp ↔ u ∈ t :: st.pending_breakpoints.map Prod.fst
      constructor
      · intro hu
        rcases List.mem_cons.mp hu with rfl | hu2
        · exact List.mem_cons_self _ _
        · exact List.mem_cons_of_mem _ ((hiff u).mp hu2)
      · intro hu
        rcases List.mem_cons.mp hu with rfl | hu2
        · exact List.mem_cons_self _ _
        · exact List.mem_cons_of_mem _ ((hiff u).mpr hu2)
  | some c =>
    have hT := sessionTids_some hcur
    rw [hT] at htT hndT hiff
    rcases List.nodup_cons.mp hndT with ⟨hcp, hndp⟩
    simp only [List.mem_cons, not_or] at htT
    simp only [hcur]
    refine ⟨List.nodup_cons.mpr ⟨hnot, hnd⟩, ?_, ?_⟩
    · show (c.1 :: (st.pending_breakpoints ++ [(t, i)]).map Prod.fst).Nodup
      rw [List.map_append]
      refine List.nodup_cons.mpr ⟨?_, ?_⟩
      · intro hmem
        rcases List.mem_append.mp hmem with h1 | h1
        · exact hcp h1
        · simp only [List.map_cons, List.map_nil, List.mem_singleton] at h1
          exact htT.1 h1.symm
      · rw [List.nodup_append]
        refine ⟨hndp, by simp, ?_⟩
        intro a ha hb
        simp only [List.map_cons, List.map_nil, List.mem_singleton] at hb
        subst hb
        exact htT.2 ha
    · intro u
      show u ∈ t :: st.thread_state_is_bp ↔
        u ∈ c.1 :: (st.pending_breakpoints ++ [(t, i)]).map Prod.fst
      rw [List.map_append]
      constructor
      · intro hu
        rcases List.mem_cons.mp hu with rfl | hu2
        · refine List.mem_cons_of_mem _ (List.mem_append.mpr (Or.inr ?_))
          simp
        · rcases List.mem_cons.mp ((hiff u).mp hu2) with h3 | h3
          · rw [h3]
            exact List.mem_cons_self _ _
          · exact List.mem_cons_of_mem _ (List.mem_append.mpr (Or.inl h3))
      · intro hu
        rcases List.mem_cons.mp hu with h3 | hu2
        · rw [h3]
          exact List.mem_cons_of_mem _ ((hiff c.1).mpr (List.mem_cons_self _ _))
        · rcases List.mem_append.mp hu2 with h3 | h3
          · exact List.mem_cons_of_mem _ ((hiff u).mpr (List.mem_cons_of_mem _ h3))
          · simp only [List.map_cons, List.map_nil, List.mem_singleton] at h3
            rw [h3]
            exact List.mem_cons_self _ _

theorem checkLoop_inv {env : FsEnv} {l : List Bytes} {st st' : InterpState}
    (hInv : SessionInv st) (h : checkLoop env l st = .ok st') : SessionInv st' := by
  induction l generalizing st with
  | nil =>
    unfold checkLoop at h
    cases h
    exact hInv
  | cons tb rest ih =>
    unfold checkLoop at h
    cases hp : parse_bp_data_file (pyDecodeReplace tb)
        (env.bpDataFile (pyDecodeReplace tb)) with
    | error e =>
      rw [hp] at h
      cases h
    | ok oi =>
      rw [hp] at h
      cases oi with
      | none => exact ih hInv h
      | some info =>
        simp only [] at h
        by_cases hmem : pyDecodeReplace tb ∈ st.thread_state_is_bp
        · rw [if_pos hmem] at h
          exact ih hInv h
        · rw [if_neg hmem] at h
          exact ih (hbe_inv hInv hmem) h

theorem continue_inv {polls : List (Option Bytes)} {st st' : InterpState}
    (hInv : SessionInv st) (h : handle_continue_command polls st = .ok st') :
    SessionInv st' := by
  obtain ⟨hnd, hndT, hiff⟩ := hInv
  cases hcur : st.current_breakpoint with
  | none =>
    rw [continue_none hcur h]
    exact ⟨hnd, hndT, hiff⟩
  | some c =>
    obtain ⟨hc1, hc2, hc3⟩ := continue_ok_shape (t := c.1) (i := c.2)
      (by rw [hcur]) h
    have hT := sessionTids_some hcur
    rw [hT] at hndT hiff
    rcases List.nodup_cons.mp hndT with ⟨hcp, hndp⟩
    have hTids : sessionTids st' = st.pending_breakpoints.map Prod.fst := by
      cases hpend : st.pending_breakpoints with
      | nil =>
        have h0 : st'.current_breakpoint = none := by
          rw [hc1, hpend]
          rfl
        rw [sessionTids_none h0, hc2, hpend]
        rfl
      | cons p rest =>
        have h0 : st'.current_breakpoint = some p := by
          rw [hc1, hpend]
          rfl
        rw [sessionTids_some h0, hc2, hpend]
        simp
    refine ⟨by rw [hc3]; exact hnd.erase _, by rw [hTids]; exact hndp, ?_⟩
    intro u
    rw [hc3, hTids]
    constructor
    · intro hu
      obtain ⟨hne, humem⟩ := (List.Nodup.mem_erase_iff hnd).mp hu
      rcases List.mem_cons.mp ((hiff u).mp humem) with h3 | h3
      · exact absurd h3 hne
      · exact h3
    · intro hu
      have hne : u ≠ c.1 := fun he => hcp (he ▸ hu)
      exact (List.Nodup.mem_erase_iff hnd).mpr
        ⟨hne, (hiff u).mpr (List.mem_cons_of_mem _ hu)⟩

theorem runOps_inv {ops : List SessionOp} {st0 st : InterpState}
    (hInv : SessionInv st0) (hops : ∀ op ∈ ops, ¬ op.isSwitch)
    (hrun : runOps ops st0 = .ok st) : SessionInv st := by
  induction ops generalizing st0 with
  | nil =>
    unfold runOps at hrun
    cases hrun
    exact hInv
  | cons op rest ih =>
    unfold runOps at hrun
    cases hstep : runOp op st0 with
    | error e =>
      rw [hstep] at hrun
      cases hrun
    | ok st1 =>
      rw [hstep] at hrun
      refine ih ?_ (fun o ho => hops o (List.mem_cons_of_mem _ ho)) hrun
      cases op with
      | poll env =>
        unfold runOp check_for_new_breakpoints at hstep
        simp only [] at hstep
        cases hpt : parse_bp_threads_file env.bpThreadsFile with
        | error e =>
          rw [hpt] at hstep
          cases hstep
        | ok tl =>
          rw [hpt] at hstep
          simp only [] at hstep
          exact checkLoop_inv hInv hstep
      | resume polls =>
        unfold runOp at hstep
        simp only [] at hstep
        exact continue_inv hInv hstep
      | switch tid env =>
        exact absurd trivial (hops _ (List.mem_cons_self _ _))

theorem find?_map_set {d : List (String × Nat)} {k : String} {v : Nat}
    (h : d.any (fun p => p.1 = k) = true) :
    (d.map (fun p => if p.1 = k then (k, v) else p)).find? (fun p => p.1 = k) =
      some (k, v) := by
  induction d with
  | nil => simp at h
  | cons hd tl ih =>
    by_cases hk : hd.1 = k
    · simp [List.find?_cons, hk]
    · have h2 : tl.any (fun p => p.1 = k) = true := by
        simp only [List.any_cons] at h
        simpa [hk] using h
      simp [List.find?_cons, hk, ih h2]

theorem dictGet_dictSet (d : List (String × Nat)) (k : String) (v : Nat) :
    dictGet (dictSet d k v) k = v := by
  unfold dictGet dictSet
  by_cases h : d.any (fun p => p.1 = k) = true
  · rw [if_pos h, find?_map_set h]
    rfl
  · rw [if_neg h]
    induction d with
    | nil => simp [List.find?_cons]
    | cons hd tl ih =>
      have hk : ¬ hd.1 = k := by
        intro hc
        exact h (by simp [List.any_cons, hc])
      have h2 : ¬ tl.any (fun p => p.1 = k) = true := by
        intro hc
        exact h (by simp [List.any_cons, hc])
      simp only [List.cons_append, List.find?_cons, hk]
      simpa [hk] using ih h2

theorem parse_indexed_output_ne_error (c : Bytes) :
    ∀ e, parse_indexed_output c ≠ .error e := by
  unfold parse_indexed_output
  by_cases hc : c = []
  · simp [hc]
  · rw [if_neg hc]
    have hlen := @pySplitOnce_length_le FIELD_SEP c
    rcases hsp : pySplitOnce FIELD_SEP c with _ | ⟨a, _ | ⟨b, _ | ⟨x, xs⟩⟩⟩
    · simp
    · simp
    · simp
    · rw [hsp] at hlen
      simp at hlen

theorem sendPollLoop_nil (expected : String) : sendPollLoop expected [] = .timedOut := rfl

theorem sendPollLoop_cons_none (expected : String) (rest : List (Option Bytes)) :
    sendPollLoop expected (none :: rest) = sendPollLoop expected rest := rfl

theorem sendPollLoop_cons_some (expected : String) (bs : Bytes)
    (rest : List (Option Bytes)) :
    sendPollLoop expected (some bs :: rest) =
      match parse_nonloadable_file (some bs) with
      | .error _ => .raised
      | .ok none => sendPollLoop expected rest
      | .ok (some content) =>
        if content = [] then sendPollLoop expected rest
        else
          match parse_indexed_output content with
          | .error _ => .raised
          | .ok (idx?, res?) =>
            match idx? with
            | none => sendPollLoop expected rest
            | some idx =>
              if idx ≠ [] ∧ pyDecodeReplace idx = expected then
                .matched (match res? with
                  | some r => if r = [] then none else some (pyDecodeReplace r)
                  | none => none)
              else sendPollLoop expected rest := rfl

theorem sendPollLoop_not_raised {expected : String} {polls : List (Option Bytes)}
    (hok : ∀ ob ∈ polls, ∀ bs, ob = some bs → parse_nonloadable_file (some bs) ≠ .error ()) :
    sendPollLoop expected polls ≠ .noData ∧ sendPollLoop expected polls ≠ .raised := by
  induction polls with
  | nil =>
    rw [sendPollLoop_nil]
    refine ⟨fun hc => ?_, fun hc => ?_⟩ <;> cases hc
  | cons ob rest ih =>
    have ihr := ih (fun o ho bs hbs => hok o (List.mem_cons_of_mem _ ho) bs hbs)
    cases ob with
    | none =>
      rw [sendPollLoop_cons_none]
      exact ihr
    | some bs =>
      cases hp : parse_nonloadable_file (some bs) with
      | error e =>
        cases e
        exact absurd hp (hok _ (List.mem_cons_self _ _) bs rfl)
      | ok oc =>
        cases oc with
        | none =>
          simp only [sendPollLoop_cons_some, hp]
          exact ihr
        | some content =>
          by_cases hce : content = []
          · simp only [sendPollLoop_cons_some, hp, if_pos hce]
            exact ihr
          · simp only [sendPollLoop_cons_some, hp, if_neg hce]
            cases hpi : parse_indexed_output content with
            | error e => exact absurd hpi (parse_indexed_output_ne_error content e)
            | ok pr =>
              obtain ⟨idx?, res?⟩ := pr
              cases idx? with
              | none =>
                simp only [hpi]
                exact ihr
              | some idx =>
                by_cases hm : idx ≠ [] ∧ pyDecodeReplace idx = expected
                · simp only [hpi, if_pos hm]
                  refine ⟨fun hc => ?_, fun hc => ?_⟩ <;> cases hc
                · simp only [hpi, if_neg hm]
                  exact ihr

theorem sendPollLoop_timeout_iff {expected : String} {polls : List (Option Bytes)}
    (hok : ∀ ob ∈ polls, ∀ bs, ob = some bs → parse_nonloadable_file (some bs) ≠ .error ()) :
    sendPollLoop expected polls = .timedOut ↔
      (∀ ob ∈ polls, ∀ bs, ob = some bs →
        ∀ content, parse_nonloadable_file (some bs) = .ok (some content) →
          ∀ idx rest, parse_indexed_output content = .ok (some idx, rest) →
            idx = [] ∨ pyDecodeReplace idx ≠ expected) := by
  induction polls with
  | nil =>
    rw [sendPollLoop_nil]
    exact ⟨fun _ o ho => absurd ho (List.not_mem_nil o), fun _ => rfl⟩
  | cons ob rest ih =>
    have ihr := ih (fun o ho bs hbs => hok o (List.mem_cons_of_mem _ ho) bs hbs)
    have hsplit : ∀ P : Option Bytes → Prop,
        (∀ o ∈ ob :: rest, P o) ↔ (P ob ∧ ∀ o ∈ rest, P o) := by
      intro P
      constructor
      · intro h
        exact ⟨h ob (List.mem_cons_self _ _), fun o ho => h o (List.mem_cons_of_mem _ ho)⟩
      · intro h o ho
        rcases List.mem_cons.mp ho with rfl | ho2
        · exact h.1
        · exact h.2 o ho2
    rw [hsplit]
    cases ob with
    | none =>
      rw [sendPollLoop_cons_none, ihr]
      constructor
      · intro h
        refine ⟨?_, h⟩
        intro bs hbs
        cases hbs
      · intro h
        exact h.2
    | some bs =>
      cases hp : parse_nonloadable_file (some bs) with
      | error e =>
        cases e
        exact absurd hp (hok _ (List.mem_cons_self _ _) bs rfl)
      | ok oc =>
        cases oc with
        | none =>
          simp only [sendPollLoop_cons_some, hp]
          rw [ihr]
          constructor
          · intro h
            refine ⟨?_, h⟩
            intro bs2 hbs2
            cases hbs2
            intro content hcontent
            rw [hp] at hcontent
            cases hcontent
          · intro h
            exact h.2
        | some content =>
          by_cases hce : content = []
          · simp only [sendPollLoop_cons_some, hp, if_pos hce]
            rw [ihr]
            constructor
            · intro h
              refine ⟨?_, h⟩
              intro bs2 hbs2
              cases hbs2
              intro content2 hcontent2
              rw [hp] at hcontent2
              injection hcontent2 with hc2
              injection hc2 with hc2
              subst hc2
              subst hce
              intro idx rest2 hpi
              cases hpi
            · intro h
              exact h.2
          · simp only [sendPollLoop_cons_some, hp, if_neg hce]
            cases hpi : parse_indexed_output content with
            | error e => exact absurd hpi (parse_indexed_output_ne_error content e)
            | ok pr =>
              obtain ⟨idx?, res?⟩ := pr
              cases idx? with
              | none =>
                simp only [hpi]
                rw [ihr]
                constructor
                · intro h
                  refine ⟨?_, h⟩
                  intro bs2 hbs2
                  cases hbs2
                  intro content2 hcontent2
                  rw [hp] at hcontent2
                  injection hcontent2 with hc2
                  injection hc2 with hc2
                  subst hc2
                  intro idx rest2 hpi2
                  rw [hpi] at hpi2
                  injection hpi2 with hc3
                  injection hc3 with hc3
                  cases hc3
                · intro h
                  exact h.2
              | some idx =>
                by_cases hm : idx ≠ [] ∧ pyDecodeReplace idx = expected
                · simp only [hpi, if_pos hm]
                  constructor
                  · intro hc
                    cases hc
                  · intro h
                    exfalso
                    have h2 := h.1 bs rfl content hp idx res? hpi
                    rcases h2 with h2 | h2
                    · exact hm.1 h2
                    · exact h2 hm.2
                · simp only [hpi, if_neg hm]
                  rw [ihr]
                  constructor
                  · intro h
                    refine ⟨?_, h⟩
                    intro bs2 hbs2
                    cases hbs2
                    intro content2 hcontent2
                    rw [hp] at hcontent2
                    injection hcontent2 with hc2
                    injection hc2 with hc2
                    subst hc2
                    intro idx2 rest2 hpi2
                    rw [hpi] at hpi2
                    injection hpi2 with hc3
                    injection hc3 with hc3 hc4
                    injection hc3 with hc3
                    subst hc3
                    by_cases hie : idx = []
                    · exact Or.inl hie
                    · refine Or.inr fun hde => hm ⟨hie, hde⟩
                  · intro h
                    exact h.2

theorem send_counter (data : String) (polls : List (Option Bytes)) (st : InterpState)
    (h : data ≠ "") :
    channelCounter (send_data_to_game data polls st).2 = channelCounter st + 1 ∧
    (send_data_to_game data polls st).1 = sendPollLoop (expectedTag st) polls := by
  unfold send_data_to_game channelCounter expectedTag
  rw [if_neg h]
  cases hc : st.current_breakpoint with
  | none => simp [hc]
  | some c =>
    obtain ⟨tid, info⟩ := c
    simp [hc, dictGet_dictSet]

theorem runSends_range (st : InterpState)
    (calls : List (String × List (Option Bytes)))
    (hne : ∀ c ∈ calls, c.1 ≠ "") :
    (runSends st calls).1 = List.range' (channelCounter st) calls.length := by
  induction calls generalizing st with
  | nil => rfl
  | cons c rest ih =>
    obtain ⟨data, polls⟩ := c
    have hd : data ≠ "" := hne _ (List.mem_cons_self _ _)
    have hcnt := (send_counter data polls st hd).1
    unfold runSends
    simp only []
    rw [ih _ (fun x hx => hne x (List.mem_cons_of_mem _ hx)), hcnt]
    rw [List.length_cons, List.range'_succ]

theorem patOpen_ne : patOpen ≠ [] := by decide

theorem patClose_ne : patClose ≠ [] := by decide

theorem patClose_len : patClose.length = 10 := by decide

theorem linePre_eq : linePre = [10, 9] ++ patOpen := by decide

theorem linePost_eq : linePost = patClose := by decide

theorem patClose_border_free :
    ∀ k, k < 10 → 1 ≤ k → patClose.drop k ≠ patClose.take (10 - k) := by decide

theorem patOpen_not_in_filePost : ∀ j, ¬ occursAt patOpen filePost j :=
  no_occ_of_bounded patOpen_ne
    (by decide : ∀ j, j < filePost.length → ¬ occursAt patOpen filePost j)

theorem patOpen_min_filePre :
    ∀ j, j < filePre.length + 2 → ¬ occursAt patOpen (filePre ++ linePre) j := by decide

theorem head?_append_drop {A B : Bytes} {j : Nat} (h : j < A.length) :
    ((A ++ B).drop j).head? = (A.drop j).head? := by
  rw [List.drop_append_of_le_length (le_of_lt h)]
  cases hd : A.drop j with
  | nil =>
    exfalso
    have := congrArg List.length hd
    rw [List.length_drop] at this
    simp at this
    omega
  | cons x xs => simp

theorem no_early_close {c rest : Bytes} (hno : ∀ i, ¬ occursAt patClose c i) :
    ∀ j, j < c.length → ¬ occursAt patClose (c ++ (patClose ++ rest)) j := by
  intro j hj hocc
  by_cases hfit : j + patClose.length ≤ c.length
  · exact hno j ((occursAt_append_of_fit hfit).mp hocc)
  · have hpc := patClose_len
    unfold occursAt at hocc
    rw [List.drop_append_of_le_length (by omega)] at hocc
    have hlen : (c.drop j).length = c.length - j := List.length_drop j c
    have h10 : patClose.length = (c.drop j).length + (patClose.length - (c.length - j)) := by
      omega
    rw [h10, List.take_append] at hocc
    have hd := congrArg (fun l => List.drop (c.drop j).length l) hocc
    simp only [List.drop_left] at hd
    have htk : (patClose ++ rest).take (patClose.length - (c.length - j)) =
        patClose.take (patClose.length - (c.length - j)) :=
      List.take_append_of_le_length (by omega)
    rw [htk] at hd
    refine patClose_border_free (c.length - j) (by omega) (by omega) ?_
    simp only [hlen] at hd
    rw [hpc] at hd
    exact hd.symm

theorem chunks255F_flatten {fuel : Nat} {p : Bytes} (h : p.length < fuel) :
    (chunks255F fuel p).flatten = p := by
  induction fuel generalizing p with
  | zero => omega
  | succ f ih =>
    unfold chunks255F
    by_cases hp : p = []
    · simp [hp]
    · rw [if_neg hp]
      simp only [List.flatten_cons]
      have hlen : p.length ≠ 0 := fun h0 => hp (List.length_eq_zero.mp h0)
      rw [ih (by rw [List.length_drop]; omega)]
      exact List.take_append_drop 255 p

theorem chunks255_flatten (p : Bytes) : (chunks255 p).flatten = p :=
  chunks255F_flatten (by omega)

theorem chunks255F_mem {fuel : Nat} {p : Bytes} :
    ∀ c ∈ chunks255F fuel p, ∃ m, c = (p.drop m).take 255 := by
  induction fuel generalizing p with
  | zero =>
    intro c hc
    cases hc
  | succ f ih =>
    unfold chunks255F
    by_cases hp : p = []
    · rw [if_pos hp]
      intro c hc
      cases hc
    · rw [if_neg hp]
      intro c hc
      rcases List.mem_cons.mp hc with rfl | hc2
      · exact ⟨0, by rw [List.drop_zero]⟩
      · obtain ⟨m, hm⟩ := ih c hc2
        refine ⟨m + 255, ?_⟩
        rw [hm, List.drop_drop, Nat.add_comm 255 m]

theorem chunk_no_close {p : Bytes} (hno : ∀ i, ¬ occursAt patClose p i) :
    ∀ c ∈ chunks255 p, ∀ i, ¬ occursAt patClose c i := by
  intro c hc i hocc
  obtain ⟨m, hm⟩ := chunks255F_mem c hc
  subst hm
  exact hno (m + i) (occursAt_drop_shift.mp (occursAt_take_imp patClose_ne hocc))

theorem chunks255_cons (p : Bytes) (hp : p ≠ []) :
    chunks255 p = p.take 255 :: chunks255F p.length (p.drop 255) := by
  unfold chunks255
  conv_lhs => unfold chunks255F
  rw [if_neg hp]

theorem encBody_len (cs : List Bytes) : cs.length ≤ (encBody cs).length := by
  induction cs with
  | nil => simp [encBody]
  | cons c rest ih =>
    show (c :: rest).length ≤ (linePre ++ c ++ linePost ++ encBody rest).length
    simp only [List.length_cons, List.length_append]
    have : 1 ≤ linePre.length := by decide
    omega

theorem patOpen_len : patOpen.length = 21 := by decide

theorem extractAll_step {c R s : Bytes} {i0 : Nat} {fuel : Nat}
    (hfind : findOcc patOpen s = some i0)
    (hdrop : s.drop (i0 + patOpen.length) = c ++ (patClose ++ R))
    (hnoc : ∀ i, ¬ occursAt patClose c i) :
    extractAll patOpen patClose 0 (fuel + 1) s =
      c :: extractAll patOpen patClose 0 fuel R := by
  have hcl : findOcc patClose (c ++ (patClose ++ R)) = some c.length := by
    apply findOcc_of_occurs patClose_ne
    · have h := @occursAt_append_shift patClose c (patClose ++ R) 0
      rw [Nat.add_zero] at h
      refine h.mpr ?_
      unfold occursAt
      rw [List.drop_zero]
      exact List.take_left patClose R
    · exact fun j hj => no_early_close hnoc j hj
  conv_lhs => unfold extractAll
  rw [hfind]
  simp only [hdrop, List.drop_zero]
  rw [hcl]
  simp only [Nat.zero_add]
  rw [List.take_left c (patClose ++ R), List.drop_left c (patClose ++ R),
    List.drop_left patClose R]

theorem extractAll_encBody {cs : List Bytes} {fuel : Nat} (hfuel : cs.length < fuel)
    (hno : ∀ c ∈ cs, ∀ i, ¬ occursAt patClose c i) :
    extractAll patOpen patClose 0 fuel (encBody cs ++ filePost) = cs := by
  induction cs generalizing fuel with
  | nil =>
    cases fuel with
    | zero => omega
    | succ f =>
      show extractAll patOpen patClose 0 (f + 1) ([] ++ filePost) = []
      rw [List.nil_append]
      unfold extractAll
      rw [findOcc_eq_none patOpen_not_in_filePost]
  | cons c cs ih =>
    cases fuel with
    | zero => omega
    | succ f =>
      have hs : encBody (c :: cs) ++ filePost =
          ([10, 9] : Bytes) ++ (patOpen ++ (c ++ (patClose ++ (encBody cs ++ filePost)))) := by
        show (linePre ++ c ++ linePost ++ encBody cs) ++ filePost = _
        rw [linePre_eq, linePost_eq]
        simp [List.append_assoc]
      have hfind : findOcc patOpen
          (([10, 9] : Bytes) ++ (patOpen ++ (c ++ (patClose ++ (encBody cs ++ filePost))))) =
          some 2 := by
        apply findOcc_of_occurs patOpen_ne
        · have h := @occursAt_append_shift patOpen ([10, 9] : Bytes)
            (patOpen ++ (c ++ (patClose ++ (encBody cs ++ filePost)))) 0
          rw [Nat.add_zero] at h
          refine h.mpr ?_
          unfold occursAt
          rw [List.drop_zero]
          exact List.take_left patOpen _
        · intro j hj
          apply not_occursAt_of_head patOpen_ne
          interval_cases j
          · rw [List.drop_zero]
            intro hc
            cases hc
          · intro hc
            cases hc
      have hdrop :
          (([10, 9] : Bytes) ++ (patOpen ++ (c ++ (patClose ++ (encBody cs ++ filePost))))).drop
            (2 + patOpen.length) = c ++ (patClose ++ (encBody cs ++ filePost)) := by
        rw [← List.append_assoc]
        have h2 : 2 + patOpen.length = (([10, 9] : Bytes) ++ patOpen).length := by decide
        rw [h2, List.drop_left]
      rw [hs, extractAll_step hfind hdrop
        (fun i => hno c (List.mem_cons_self _ _) i)]
      exact congrArg (fun l => c :: l)
        (ih (by simp only [List.length_cons] at hfuel; omega)
          (fun x hx => hno x (List.mem_cons_of_mem _ hx)))

theorem extractAll_full {c0 : Bytes} {cs : List Bytes} {fuel : Nat}
    (hfuel : cs.length + 1 < fuel)
    (hno : ∀ c ∈ c0 :: cs, ∀ i, ¬ occursAt patClose c i) :
    extractAll patOpen patClose 0 fuel
      (filePre ++ (encBody (c0 :: cs) ++ filePost)) = c0 :: cs := by
  cases fuel with
  | zero => omega
  | succ f =>
    have hs : filePre ++ (encBody (c0 :: cs) ++ filePost) =
        (filePre ++ [10, 9]) ++
          (patOpen ++ (c0 ++ (patClose ++ (encBody cs ++ filePost)))) := by
      show filePre ++ ((linePre ++ c0 ++ linePost ++ encBody cs) ++ filePost) = _
      rw [linePre_eq, linePost_eq]
      simp [List.append_assoc]
    have hassoc : (filePre ++ [10, 9] : Bytes) ++
          (patOpen ++ (c0 ++ (patClose ++ (encBody cs ++ filePost)))) =
        (filePre ++ linePre) ++ (c0 ++ (patClose ++ (encBody cs ++ filePost))) := by
      rw [linePre_eq]
      simp [List.append_assoc]
    have hfind : findOcc patOpen
        ((filePre ++ [10, 9] : Bytes) ++
          (patOpen ++ (c0 ++ (patClose ++ (encBody cs ++ filePost))))) =
        some (filePre.length + 2) := by
      apply findOcc_of_occurs patOpen_ne
      · have hl2 : filePre.length + 2 = (filePre ++ [10, 9] : Bytes).length := by
          simp
        rw [hl2]
        have h := @occursAt_append_shift patOpen (filePre ++ [10, 9] : Bytes)
          (patOpen ++ (c0 ++ (patClose ++ (encBody cs ++ filePost)))) 0
        rw [Nat.add_zero] at h
        refine h.mpr ?_
        unfold occursAt
        rw [List.drop_zero]
        exact List.take_left patOpen _
      · intro j hj hocc
        rw [hassoc] at hocc
        have hfit : j + patOpen.length ≤ (filePre ++ linePre).length := by
          have hpol := patOpen_len
          have : (filePre ++ linePre).length = filePre.length + 23 := by decide
          omega
        exact patOpen_min_filePre j hj ((occursAt_append_of_fit hfit).mp hocc)
    have hdrop :
        ((filePre ++ [10, 9] : Bytes) ++
          (patOpen ++ (c0 ++ (patClose ++ (encBody cs ++ filePost))))).drop
            (filePre.length + 2 + patOpen.length) =
          c0 ++ (patClose ++ (encBody cs ++ filePost)) := by
      rw [hassoc]
      have h2 : filePre.length + 2 + patOpen.length = (filePre ++ linePre).length := by
        decide
      rw [h2, List.drop_left]
    rw [hs, extractAll_step hfind hdrop (fun i => hno c0 (List.mem_cons_self _ _) i)]
    exact congrArg (fun l => c0 :: l)
      (extractAll_encBody (by omega) (fun x hx => hno x (List.mem_cons_of_mem _ hx)))

theorem roundtrip_load {p : Bytes} (hne : p ≠ []) (hno : ∀ i, ¬ occursAt patClose p i) :
    load_file (some (createData p)) = some p := by
  rcases hcs : chunks255 p with _ | ⟨c0, cs⟩
  · rw [chunks255_cons p hne] at hcs
    cases hcs
  · have hnoall : ∀ c ∈ c0 :: cs, ∀ i, ¬ occursAt patClose c i := by
      rw [← hcs]
      exact chunk_no_close hno
    have hflat : (c0 :: cs).flatten = p := by
      rw [← hcs]
      exact chunks255_flatten p
    have hL : createData p = filePre ++ (encBody (c0 :: cs) ++ filePost) := by
      unfold createData
      rw [hcs, List.append_assoc]
    have hlen : cs.length + 1 <
        (filePre ++ (encBody (c0 :: cs) ++ filePost)).length + 1 := by
      have h1 := encBody_len (c0 :: cs)
      simp only [List.length_append, List.length_cons] at h1 ⊢
      omega
    have hext : reFindallLoad (createData p) = c0 :: cs := by
      unfold reFindallLoad
      rw [hL]
      exact extractAll_full hlen hnoall
    unfold load_file
    simp only [hext]
    rw [if_pos (by simp : (c0 :: cs) ≠ [])]
    rw [hflat]

/-! ## Claim theorems -/

/-- **C10.** `parse_indexed_output` is total over all byte strings and
splits only at the first `FIELD_SEP`: empty input yields `(None, None)`;
input without a separator yields `(whole input, b"")`; input with a
separator yields the bytes before the first separator as the tag and
everything after it — later separators preserved verbatim — and the
internal assertion can never fire (no exception is raised). -/
theorem c10_parse_indexed_output_total (c : Bytes) :
    (∃ r, parse_indexed_output c = .ok r) ∧
    (c = [] → parse_indexed_output c = .ok (none, none)) ∧
    (c ≠ [] → FIELD_SEP ∉ c → parse_indexed_output c = .ok (some c, some [])) ∧
    (FIELD_SEP ∈ c →
      parse_indexed_output c =
        .ok (some (c.takeWhile (fun b => b ≠ FIELD_SEP)),
             some ((c.dropWhile (fun b => b ≠ FIELD_SEP)).tail)) ∧
      c.takeWhile (fun b => b ≠ FIELD_SEP) ++
        FIELD_SEP :: (c.dropWhile (fun b => b ≠ FIELD_SEP)).tail = c) := by
  by_cases hc : c = []
  · subst hc
    refine ⟨⟨(none, none), rfl⟩, fun _ => rfl, fun h _ => absurd rfl h, fun h => ?_⟩
    cases h
  · by_cases hmem : FIELD_SEP ∈ c
    · have hsplit : pySplitOnce FIELD_SEP c =
          [c.takeWhile (fun b => b ≠ FIELD_SEP), (c.dropWhile (fun b => b ≠ FIELD_SEP)).tail] := by
        unfold pySplitOnce
        rw [if_pos hmem]
      have heq : parse_indexed_output c =
          .ok (some (c.takeWhile (fun b => b ≠ FIELD_SEP)),
               some ((c.dropWhile (fun b => b ≠ FIELD_SEP)).tail)) := by
        unfold parse_indexed_output
        rw [if_neg hc, hsplit]
        rfl
      exact ⟨⟨_, heq⟩, fun h => absurd h hc, fun _ h => absurd hmem h,
        fun _ => ⟨heq, pySplitOnce_reassemble hmem⟩⟩
    · have hsplit : pySplitOnce FIELD_SEP c = [c] := by
        unfold pySplitOnce
        rw [if_neg hmem]
      have heq : parse_indexed_output c = .ok (some c, some []) := by
        unfold parse_indexed_output
        rw [if_neg hc, hsplit]
        rfl
      exact ⟨⟨_, heq⟩, fun h => absurd h hc, fun _ _ => heq, fun h => absurd h hmem⟩

/-- Witness for C10 at the concrete input `b"5\x1f7\x1f9"` (two
separators: the split happens only at the first one, the second is
preserved in the result). -/
theorem c10_witness :
    parse_indexed_output [53, 31, 55, 31, 57] = .ok (some [53], some [55, 31, 57]) := by
  have h := (c10_parse_indexed_output_total [53, 31, 55, 31, 57]).2.2.2 (by decide)
  exact h.1.trans (by decide)

/-- **C8 counterexample.** The claim says decoding an unrecognized wrapper
"returns no payload rather than raising an exception"; but
`parse_nonloadable_file` on the bytes `b"garbage"` (no recognized wrapper)
raises an `AssertionError` (modelled `.error ()`), while `load_file` on the
same bytes indeed returns the empty payload. -/
theorem c8_counterexample :
    parse_nonloadable_file (some (strBytes "garbage")) = .error () ∧
    load_file (some (strBytes "garbage")) = some [] := by decide

/-- **C8 (amended).** For input bytes containing no `call Preload( "`
opener (hence no recognized payload-bearing wrapper): `load_file` returns
the empty payload and never raises; `parse_nonloadable_file` returns
no-payload only when both the `call PreloadStart()` and `call PreloadEnd(`
markers are present (the well-formed empty-result wrapper), and raises an
`AssertionError` otherwise. -/
theorem c8_unrecognized_wrapper (s : Bytes)
    (hno : containsSub readOpen s = false) :
    load_file (some s) = some [] ∧
    (containsSub startMarker s = true → containsSub endMarker s = true →
      parse_nonloadable_file (some s) = .ok none) ∧
    (¬ (containsSub startMarker s = true ∧ containsSub endMarker s = true) →
      parse_nonloadable_file (some s) = .error ()) := by
  have hnocc : ∀ j, ¬ occursAt readOpen s j :=
    (containsSub_eq_false_iff (by decide)).mp hno
  have hpat : ∀ j, ¬ occursAt patOpen s j := no_readOpen_no_patOpen hnocc
  have h1 : reFindallLoad s = [] := extractAll_eq_nil_of_no_open hpat
  have h2 : reFindallRead s = [] := extractAll_eq_nil_of_no_open hnocc
  have h3 : reFindallNonloadable s = [] := extractAll_eq_nil_of_no_open hnocc
  refine ⟨?_, ?_, ?_⟩
  · unfold load_file
    simp [h1, h2]
  · intro hs he
    unfold parse_nonloadable_file
    simp [h3, hs, he]
  · intro hne
    unfold parse_nonloadable_file
    simp [h3]
    intro hs
    cases he : containsSub endMarker s with
    | false => rfl
    | true => exact absurd ⟨hs, he⟩ hne

/-- Witness for C8 at concrete inputs: `b"xyz"` (no markers: assertion
fires) and a marker-only wrapper (valid empty save: no payload, no error);
`load_file` returns the empty payload on the unrecognized input. -/
theorem c8_witness :
    load_file (some (strBytes "xyz")) = some [] ∧
    parse_nonloadable_file (some (strBytes "xyz")) = .error () ∧
    parse_nonloadable_file
      (some (strBytes "call PreloadStart() call PreloadEnd( 0 )")) = .ok none := by
  have h1 := c8_unrecognized_wrapper (strBytes "xyz") (by decide)
  have h2 := c8_unrecognized_wrapper
    (strBytes "call PreloadStart() call PreloadEnd( 0 )") (by decide)
  exact ⟨h1.1, h1.2.2 (by decide), h2.2.1 (by decide) (by decide)⟩

/-- **C9 counterexample.** The claim says a record file that fails to
parse is treated as not-yet-written with "no error raised"; but when the
announcement file lists `T1` and `bp_data_T1.txt` holds the single byte
`b"x"` (no wrapper), the poll propagates an `AssertionError` out of
`check_for_new_breakpoints` instead of skipping the thread. -/
theorem c9_counterexample :
    check_for_new_breakpoints
      ⟨some (strBytes "call Preload( \"T1\" )"), fun _ => some (strBytes "x")⟩
      initState = .error () := by decide

/-- **C9 (amended).** When every listed thread's record file parses at the
wrapper level to an empty payload (the mid-write case: `parse_bp_data_file`
yields no record), the poll raises nothing and leaves the session state
exactly unchanged — no thread is flagged, and since the state is unchanged
the same threads are re-examined by the next poll cycle.  (A record file
whose bytes lack the Preload wrapper instead raises an `AssertionError`.) -/
theorem c9_mid_write_records (env : FsEnv) (tl : List Bytes) (st : InterpState)
    (hthreads : parse_bp_threads_file env.bpThreadsFile = .ok tl)
    (hall : ∀ t ∈ tl,
      parse_bp_data_file (pyDecodeReplace t) (env.bpDataFile (pyDecodeReplace t)) = .ok none) :
    check_for_new_breakpoints env st = .ok st := by
  unfold check_for_new_breakpoints
  rw [hthreads]
  clear hthreads
  induction tl generalizing st with
  | nil => rfl
  | cons t rest ih =>
    unfold checkLoop
    rw [hall t (List.mem_cons_self _ _)]
    exact ih st (fun u hu => hall u (List.mem_cons_of_mem _ hu))

/-- Witness for C9: announcement lists `T1`, and `bp_data_T1.txt` is a
wrapper with no payload (empty save mid-write); the poll returns the state
unchanged. -/
theorem c9_witness :
    check_for_new_breakpoints
      ⟨some (strBytes "call Preload( \"T1\" )"),
       fun _ => some (strBytes "call PreloadStart()\ncall PreloadEnd( 0.0 )")⟩
      initState = .ok initState :=
  c9_mid_write_records _ [strBytes "T1"] _ (by decide) (by decide)

/-- **C4 counterexample.** The claim says `switch` removes the switched-to
thread from the pending queue and rebinds to any thread whose halted flag
is set.  In state `stAB` (current `A`, `B` queued and flagged): switching
to `B` leaves `("B", infoB)` in the pending queue (now also current); and
with no announcement file, switching to the flagged thread `B` reports
"not found" and changes nothing, because the code consults the
announcement file rather than the halted flags. -/
theorem c4_counterexample :
    handle_thread_command "B" envB stAB =
      .ok { stAB with current_breakpoint := some ("B", infoB2) } ∧
    ("B", infoB) ∈ stAB.pending_breakpoints ∧
    handle_thread_command "B" ⟨none, fun _ => none⟩ stAB = .ok stAB ∧
    "B" ∈ stAB.thread_state_is_bp := by decide

/-- **C4 (amended).** `handle_thread_command tid` rebinds `current` to
`tid` exactly when the announcement file (`bp_threads.txt`) currently
lists `tid` — pending, flags and command indices are never touched, so a
queued thread stays in the queue after being switched to; when the file
does not list `tid` (even if its halted flag is set) it reports "not
found" and leaves the whole state unchanged. -/
theorem c4_switch_behavior (tid : String) (env : FsEnv) (st : InterpState)
    (threads : List Bytes)
    (hthreads : parse_bp_threads_file env.bpThreadsFile = .ok threads) :
    (tid ∈ threads.map pyDecodeReplace →
      ∀ info, parse_bp_data_file tid (env.bpDataFile tid) = .ok (some info) →
        handle_thread_command tid env st =
          .ok { st with current_breakpoint := some (tid, info) }) ∧
    (tid ∈ threads.map pyDecodeReplace →
      parse_bp_data_file tid (env.bpDataFile tid) = .ok none →
        handle_thread_command tid env st =
          .ok { st with current_breakpoint := some (tid, { thread_id := tid }) }) ∧
    (tid ∉ threads.map pyDecodeReplace → handle_thread_command tid env st = .ok st) := by
  unfold handle_thread_command
  rw [hthreads]
  refine ⟨?_, ?_, ?_⟩
  · intro hm info hinfo
    simp only [hm, if_pos, hinfo]
  · intro hm hinfo
    simp only [hm, if_pos, hinfo]
  · intro hm
    simp only [hm, if_neg]
    simp

/-- Witness for C4: switching to the listed thread `B` from the empty
initial state rebinds `current` to `B`'s freshly parsed record. -/
theorem c4_witness :
    handle_thread_command "B" envB initState =
      .ok { initState with current_breakpoint := some ("B", infoB2) } :=
  (c4_switch_behavior "B" envB initState [strBytes "B"] (by decide)).1
    (by decide) infoB2 (by decide)

/-- **C3.** A newly observed halt becomes current immediately when no
context is current and is appended to the tail of the pending queue
otherwise; `continue` pops the head of the pending queue as the new
current (none when the queue is empty).  Consequently, with `A` current,
halts observed for `B` then `C` surface as `B`, then `C`, then none, each
with its originally observed record. -/
theorem c3_fifo_order :
    (∀ (t : String) (i : BpInfo) (st : InterpState), st.current_breakpoint = none →
      handle_breakpoint_event t i st = { st with current_breakpoint := some (t, i) }) ∧
    (∀ (t : String) (i : BpInfo) (st : InterpState) (c : String × BpInfo),
      st.current_breakpoint = some c →
      handle_breakpoint_event t i st =
        { st with pending_breakpoints := st.pending_breakpoints ++ [(t, i)] }) ∧
    (∀ (polls : List (Option Bytes)) (st st' : InterpState) (t : String) (i : BpInfo),
      st.current_breakpoint = some (t, i) →
      handle_continue_command polls st = .ok st' →
      st'.current_breakpoint = st.pending_breakpoints.head? ∧
      st'.pending_breakpoints = st.pending_breakpoints.tail) ∧
    (handle_breakpoint_event "C" infoC (handle_breakpoint_event "B" infoB
        ⟨0, [], some ("A", infoA), [], ["A"]⟩) =
      ⟨0, [], some ("A", infoA), [("B", infoB), ("C", infoC)], ["A"]⟩ ∧
     handle_continue_command []
        ⟨0, [], some ("A", infoA), [("B", infoB), ("C", infoC)], ["A"]⟩ =
      .ok ⟨0, [("A", 1)], some ("B", infoB), [("C", infoC)], []⟩ ∧
     handle_continue_command [] ⟨0, [("A", 1)], some ("B", infoB), [("C", infoC)], []⟩ =
      .ok ⟨0, [("A", 1), ("B", 1)], some ("C", infoC), [], []⟩ ∧
     handle_continue_command [] ⟨0, [("A", 1), ("B", 1)], some ("C", infoC), [], []⟩ =
      .ok ⟨0, [("A", 1), ("B", 1), ("C", 1)], none, [], []⟩) := by
  refine ⟨?_, ?_, ?_, by decide⟩
  · intro t i st hcur
    unfold handle_breakpoint_event
    rw [hcur]
  · intro t i st c hcur
    unfold handle_breakpoint_event
    rw [hcur]
  · intro polls st st' t i hcur hok
    exact ⟨(continue_ok_shape hcur hok).1, (continue_ok_shape hcur hok).2.1⟩

/-- Witness for C3: observing `B` while `A` is current queues `B`; the
first `continue` surfaces `B` with its original record. -/
theorem c3_witness :
    handle_breakpoint_event "B" infoB ⟨0, [], some ("A", infoA), [], ["A"]⟩ =
      ⟨0, [], some ("A", infoA), [("B", infoB)], ["A"]⟩ ∧
    handle_continue_command [] ⟨0, [], some ("A", infoA), [("B", infoB)], ["A"]⟩ =
      .ok ⟨0, [("A", 1)], some ("B", infoB), [], []⟩ := by
  constructor
  · exact (c3_fifo_order.2.1 "B" infoB ⟨0, [], some ("A", infoA), [], ["A"]⟩
      ("A", infoA) rfl).trans (by decide)
  · have h := c3_fifo_order.2.2.1 []
      ⟨0, [], some ("A", infoA), [("B", infoB)], ["A"]⟩
      ⟨0, [("A", 1)], some ("B", infoB), [], []⟩ "A" infoA rfl
    exact (by decide :
      handle_continue_command [] ⟨0, [], some ("A", infoA), [("B", infoB)], ["A"]⟩ =
        .ok ⟨0, [("A", 1)], some ("B", infoB), [], []⟩)

/-- **C6 counterexample.** The claim says a halted flag is never set by
"mere persistence of an announcement that was already observed" and that
after a continue an unchanged announcement file does not re-flag the
thread.  Running poll, continue, poll against the unchanged environment
`envT` re-flags `T1` (and re-surfaces it as current): the poll has no
memory of past announcements beyond the flag that continue just cleared. -/
theorem c6_counterexample :
    runOps [.poll envT, .resume [], .poll envT] initState =
      .ok ⟨0, [("T1", 1)], some ("T1", infoT1), [], ["T1"]⟩ ∧
    "T1" ∈ (⟨0, [("T1", 1)], some ("T1", infoT1), [], ["T1"]⟩ :
      InterpState).thread_state_is_bp := by decide

/-- **C6 (amended).** A thread's halted flag goes false→true only during a
poll whose announcement file currently lists the thread with a record file
that parses to a usable record — whether or not the same announcement was
observed before (so after a continue, an unchanged announcement file
re-flags the thread on the next poll); it goes true→false only when the
operator's continue resumes that thread as the current context (`switch`
never touches the flags, `continue` never sets one). -/
theorem c6_flag_transitions :
    (∀ (env : FsEnv) (st st' : InterpState) (t : String) (tl : List Bytes),
      check_for_new_breakpoints env st = .ok st' →
      t ∉ st.thread_state_is_bp → t ∈ st'.thread_state_is_bp →
      parse_bp_threads_file env.bpThreadsFile = .ok tl →
      t ∈ tl.map pyDecodeReplace ∧
        parse_bp_data_file t (env.bpDataFile t) ≠ .ok none ∧
        parse_bp_data_file t (env.bpDataFile t) ≠ .error ()) ∧
    (∀ (polls : List (Option Bytes)) (st st' : InterpState) (t : String),
      handle_continue_command polls st = .ok st' →
      t ∉ st.thread_state_is_bp → t ∉ st'.thread_state_is_bp) ∧
    (∀ (tid : String) (env : FsEnv) (st st' : InterpState),
      handle_thread_command tid env st = .ok st' →
      st'.thread_state_is_bp = st.thread_state_is_bp) ∧
    (∀ (env : FsEnv) (st st' : InterpState) (t : String),
      check_for_new_breakpoints env st = .ok st' →
      t ∈ st.thread_state_is_bp → t ∈ st'.thread_state_is_bp) ∧
    (∀ (polls : List (Option Bytes)) (st st' : InterpState) (t : String),
      handle_continue_command polls st = .ok st' →
      t ∈ st.thread_state_is_bp → t ∉ st'.thread_state_is_bp →
      st.current_breakpoint.map Prod.fst = some t) := by
  refine ⟨?_, ?_, ?_, ?_, ?_⟩
  · intro env st st' t tl hok hnot hmem hpt
    unfold check_for_new_breakpoints at hok
    rw [hpt] at hok
    simp only [] at hok
    rcases checkLoop_flags_new hok t hmem with hl | ⟨hm, info, hinfo⟩
    · exact absurd hl hnot
    · refine ⟨hm, ?_, ?_⟩
      · simp [hinfo]
      · simp [hinfo]
  · intro polls st st' t hok hnot hmem
    cases hcur : st.current_breakpoint with
    | none =>
      rw [continue_none hcur hok] at hmem
      exact hnot hmem
    | some c =>
      have hshape := continue_ok_shape (t := c.1) (i := c.2)
        (by rw [hcur]) hok
      rw [hshape.2.2] at hmem
      exact hnot (List.mem_of_mem_erase hmem)
  · intro tid env st st' hok
    exact (switch_fields hok).1
  · intro env st st' t hok hmem
    unfold check_for_new_breakpoints at hok
    cases hpt : parse_bp_threads_file env.bpThreadsFile with
    | error e =>
      rw [hpt] at hok
      cases hok
    | ok tl =>
      rw [hpt] at hok
      simp only [] at hok
      exact checkLoop_flags_mono hok t hmem
  · intro polls st st' t hok hmem hnot
    cases hcur : st.current_breakpoint with
    | none =>
      rw [continue_none hcur hok] at hnot
      exact absurd hmem hnot
    | some c =>
      have hshape := continue_ok_shape (t := c.1) (i := c.2)
        (by rw [hcur]) hok
      rw [hshape.2.2] at hnot
      by_cases hte : t = c.1
      · subst hte
        rfl
      · exact absurd ((List.mem_erase_of_ne hte).mpr hmem) hnot

/-- Witness for C6: in the run of `c6_counterexample`'s first poll, the
flagging of `T1` is justified exactly as the amended claim states: `T1` is
listed in the announcement file and its record parses. -/
theorem c6_witness :
    "T1" ∈ [strBytes "T1"].map pyDecodeReplace ∧
    parse_bp_data_file "T1" (envT.bpDataFile "T1") ≠ .ok none ∧
    parse_bp_data_file "T1" (envT.bpDataFile "T1") ≠ .error () :=
  c6_flag_transitions.1 envT initState
    ⟨0, [], some ("T1", infoT1), [], ["T1"]⟩ "T1" [strBytes "T1"]
    (by decide) (by decide) (by decide) (by decide)

/-- **C2 counterexample.** The claim quantifies over sequences that may
include `switch`.  From the initial state, one poll of `envAB` makes `A`
current and queues `B`; switching to `B` then leaves `B` both current and
queued (duplicated) and drops `A` from the registry while `A`'s halted
flag is still set — the current-plus-pending set no longer equals the
flagged set. -/
theorem c2_counterexample :
    runOps [.poll envAB, .switch "B" envAB] initState =
      .ok ⟨0, [], some ("B", infoPB), [("B", infoPB)], ["B", "A"]⟩ ∧
    ¬ (sessionTids ⟨0, [], some ("B", infoPB), [("B", infoPB)], ["B", "A"]⟩).Nodup ∧
    "A" ∈ (⟨0, [], some ("B", infoPB), [("B", infoPB)], ["B", "A"]⟩ :
      InterpState).thread_state_is_bp ∧
    "A" ∉ sessionTids ⟨0, [], some ("B", infoPB), [("B", infoPB)], ["B", "A"]⟩ := by
  refine ⟨by decide, by decide, by decide, by decide⟩

/-- **C2 (amended).** After any sequence of `observe` (poll cycles) and
`resume_current` (continue) operations from the initial state — `switch`
excluded — at most one thread is current, and the current context together
with the pending queue holds exactly the threads whose halted flag is
true, with no thread twice.  (`switch` can break the equality and
duplicate a thread, as the counterexample shows.) -/
theorem c2_invariant (ops : List SessionOp) (st : InterpState)
    (hops : ∀ op ∈ ops, ¬ op.isSwitch)
    (hrun : runOps ops initState = .ok st) :
    (∀ c c', st.current_breakpoint = some c → st.current_breakpoint = some c' → c = c') ∧
    SessionInv st := by
  have hInv0 : SessionInv initState :=
    ⟨List.nodup_nil, List.nodup_nil, fun t => Iff.rfl⟩
  refine ⟨?_, runOps_inv hInv0 hops hrun⟩
  intro c c' h1 h2
  rw [h1] at h2
  exact Option.some.inj h2

/-- Witness for C2: a poll that halts `A` and `B` followed by one continue
leaves `B` current, nothing pending, and only `B` flagged — the invariant
holds for this observe/resume sequence. -/
theorem c2_witness :
    SessionInv ⟨0, [("A", 1)], some ("B", infoPB), [], ["B"]⟩ :=
  (c2_invariant [.poll envAB, .resume []]
    ⟨0, [("A", 1)], some ("B", infoPB), [], ["B"]⟩
    (by
      intro op hop
      rcases List.mem_cons.mp hop with rfl | hop
      · exact fun hf => hf
      · rcases List.mem_cons.mp hop with rfl | hop
        · exact fun hf => hf
        · cases hop)
    (by decide)).2

/-- **C1 counterexample.** The claim says a call that sees no matching tag
"returns a timeout error after the bound elapses"; but when the response
file holds unrecognized bytes, `send_data_to_game` propagates the
`AssertionError` from `parse_nonloadable_file` instead of timing out (the
channel index has already advanced when it raises). -/
theorem c1_counterexample :
    (send_data_to_game "x" [some (strBytes "garbage")] initState).1 = .raised ∧
    SendResult.raised ≠ SendResult.timedOut ∧
    (send_data_to_game "x" [some (strBytes "garbage")] initState).2.nextFile = 1 := by
  refine ⟨by decide, by decide, by decide⟩

/-- **C1 (amended).** For every `send_data_to_game` call with non-empty
data whose observed response files all parse at the wrapper level
(unparsable response bytes instead abort the call with an
`AssertionError`): the call's outcome is the poll loop's verdict on the
channel's expected tag (`"{thread_id}:{cmd_index}"` on a breakpoint
channel, `"{cmd_index}"` on the default channel); the channel's counter
advances by exactly one while the rest of the session state is untouched;
the loop never raises and returns a decoded result only on an exact
decoded-tag match, timing out iff no observation carries the expected tag;
and across any sequence of calls on the same channel the consumed indices
are consecutive and never reused. -/
theorem c1_correlated_send (data : String) (polls : List (Option Bytes)) (st : InterpState)
    (hdata : data ≠ "")
    (hok : ∀ ob ∈ polls, ∀ bs, ob = some bs →
      parse_nonloadable_file (some bs) ≠ .error ()) :
    ((send_data_to_game data polls st).1 = sendPollLoop (expectedTag st) polls ∧
     channelCounter (send_data_to_game data polls st).2 = channelCounter st + 1 ∧
     (send_data_to_game data polls st).2.current_breakpoint = st.current_breakpoint ∧
     (send_data_to_game data polls st).2.pending_breakpoints = st.pending_breakpoints ∧
     (send_data_to_game data polls st).2.thread_state_is_bp = st.thread_state_is_bp) ∧
    (sendPollLoop (expectedTag st) polls ≠ .noData ∧
     sendPollLoop (expectedTag st) polls ≠ .raised) ∧
    (sendPollLoop (expectedTag st) polls = .timedOut ↔
      ∀ ob ∈ polls, ∀ bs, ob = some bs →
        ∀ content, parse_nonloadable_file (some bs) = .ok (some content) →
          ∀ idx rest, parse_indexed_output content = .ok (some idx, rest) →
            idx = [] ∨ pyDecodeReplace idx ≠ expectedTag st) ∧
    (∀ calls : List (String × List (Option Bytes)),
      (∀ c ∈ calls, c.1 ≠ "") →
      (runSends st calls).1 = List.range' (channelCounter st) calls.length ∧
      (runSends st calls).1.Nodup) := by
  have hsc := send_counter data polls st hdata
  have hsf := send_state_fields data polls st hdata
  refine ⟨⟨hsc.2, hsc.1, hsf.1, hsf.2.1, hsf.2.2.1⟩,
    sendPollLoop_not_raised hok, sendPollLoop_timeout_iff hok, ?_⟩
  intro calls hne
  refine ⟨runSends_range st calls hne, ?_⟩
  rw [runSends_range st calls hne]
  exact List.nodup_range' _ _

/-- Witness for C1: on the fresh default channel, a response file tagged
`0` with result `1000` matches the expected tag; the call returns the
decoded result and `nextFile` advances to 1; two further calls consume
indices 1 and 2. -/
theorem c1_witness :
    (send_data_to_game "return gold" [some outFile0] initState).1 =
      .matched (some "1000") ∧
    channelCounter (send_data_to_game "return gold" [some outFile0] initState).2 = 1 ∧
    (runSends initState [("a", []), ("b", [])]).1 = [0, 1] := by
  have h := c1_correlated_send "return gold" [some outFile0] initState (by decide)
    (by
      intro ob hob bs hbs
      rcases List.mem_singleton.mp hob with rfl
      cases hbs
      decide)
  refine ⟨?_, ?_, ?_⟩
  · rw [h.1.1]
    decide
  · rw [h.1.2.1]
    decide
  · have h2 := (h.2.2.2 [("a", []), ("b", [])] (by decide)).1
    rw [h2]
    decide

/-- **C5 counterexample.** The round trip does not hold for every byte
string: `create_file` asserts the payload is non-empty, so `p = b""`
raises an AssertionError instead of writing a file; and a payload equal
to the closing delimiter bytes `" )\n\tcall PreloadEnd`-free closer
`\" )` + newline pattern is accepted by `create_file` but decodes to a
different byte string (`load_file` cuts the payload at the embedded
closer), so `decode(encode(p)) = p` fails. -/
theorem c5_counterexample :
    create_file ([] : Bytes) = .error () ∧
    create_file patClose = .ok (createData patClose) ∧
    load_file (some (createData patClose)) ≠ some patClose := by
  refine ⟨by decide, by decide, by decide⟩

/-- **C5.** Amended round trip: for every non-empty payload `p` that does
not contain the closing delimiter bytes (`patClose`) as a substring —
which covers all sizes, including 254, 255, 256 and multi-kilobyte
payloads — `create_file` succeeds and writes `createData p`, and
`load_file` on that file returns exactly `p`. -/
theorem c5_roundtrip (p : Bytes) (hne : p ≠ []) (hno : containsSub patClose p = false) :
    create_file p = .ok (createData p) ∧ load_file (some (createData p)) = some p := by
  refine ⟨?_, roundtrip_load hne ((containsSub_eq_false_iff patClose_ne).mp hno)⟩
  unfold create_file
  rw [if_neg hne]

/-- **C5 witness.** A 256-byte payload (two chunks: 255 + 1) satisfies
both hypotheses and round-trips. -/
theorem c5_witness :
    List.replicate 256 65 ≠ ([] : Bytes) ∧
    containsSub patClose (List.replicate 256 65) = false ∧
    (create_file (List.replicate 256 65) = .ok (createData (List.replicate 256 65)) ∧
      load_file (some (createData (List.replicate 256 65))) =
        some (List.replicate 256 65)) :=
  ⟨by decide, by decide, c5_roundtrip _ (by decide) (by decide)⟩

/-- **C7 counterexample.** A nested callable declared with
`local function inner()` is not counted by the depth scan: the line-start
declaration test rejects it (`local` precedes `function`), so the scan
closes the span of `outer` at the FIRST `end` line — the returned span
covers only the first 48 of the 62 source characters and includes just
one block terminator, excluding `outer`'s own `end`. -/
theorem c7_counterexample :
    matchesDeclLine ("  local function inner()\n".data) = false ∧
    find_lua_function srcLocalNested (some ("outer".data)) none =
      .ok (some (0, 48,
        ("function outer()\n  local function inner()\n  end\n").data)) ∧
    srcLocalNested.length = 62 := by
  refine ⟨by decide, by decide, by decide⟩

/-- **C7.** Amended scan property: only lines whose first token (after
leading whitespace) is `function` increment the depth, and whenever the
forward scan returns a closing index `k`, that index lies at or after the
start, inside the line list, and its line opens with the token `end` (and
not with `function`): the span always closes at an `end` line that
balances the counted declarations. -/
theorem c7_scan_closes_at_end_line (lines : List (List Char)) (fuel j : Nat)
    (depth : Int) (k : Nat) (h : scanEndF lines fuel j depth = some k) :
    j ≤ k ∧ k < lines.length ∧ matchesEndLine (lines.getD k []) = true ∧
      matchesDeclLine (lines.getD k []) = false := by
  induction fuel generalizing j depth with
  | zero => cases h
  | succ f ih =>
    unfold scanEndF at h
    simp only [] at h
    by_cases hj : j < lines.length
    · rw [if_pos hj] at h
      by_cases hd : matchesDeclLine (lines.getD j []) = true
      · rw [if_pos hd] at h
        have hr := ih (j + 1) (depth + 1) h
        exact ⟨Nat.le_of_succ_le hr.1, hr.2⟩
      · rw [if_neg hd] at h
        by_cases he : matchesEndLine (lines.getD j []) = true
        · rw [if_pos he] at h
          by_cases hz : depth - 1 = 0
          · rw [if_pos hz] at h
            injection h with hk
            subst hk
            refine ⟨Nat.le_refl j, hj, he, ?_⟩
            simpa using hd
          · rw [if_neg hz] at h
            have hr := ih (j + 1) (depth - 1) h
            exact ⟨Nat.le_of_succ_le hr.1, hr.2⟩
        · rw [if_neg he] at h
          have hr := ih (j + 1) depth h
          exact ⟨Nat.le_of_succ_le hr.1, hr.2⟩
    · rw [if_neg hj] at h
      cases h

/-- **C7 witness.** On the plainly nested source the scan stops at line 4
(`outer`'s own `end`), so the locator spans the whole source — both block
terminators and the nested declaration included; an `end`-less source and
a missing name both give not-found. -/
theorem c7_witness :
    scanEndF (pySplitlines srcNested) 6 0 0 = some 4 ∧
    (0 ≤ 4 ∧ 4 < (pySplitlines srcNested).length ∧
      matchesEndLine ((pySplitlines srcNested).getD 4 []) = true ∧
      matchesDeclLine ((pySplitlines srcNested).getD 4 []) = false) ∧
    find_lua_function srcNested (some ("outer".data)) none =
      .ok (some (0, 56, srcNested)) ∧
    find_lua_function srcNoEnd (some ("outer".data)) none = .ok none ∧
    find_lua_function srcNested (some ("missing".data)) none = .ok none :=
  ⟨by decide, c7_scan_closes_at_end_line (pySplitlines srcNested) 6 0 0 4 (by decide),
    by decide, by decide, by decide⟩

end Wc3
